import Mathlib

/-!
# Wait-free concurrent queue (wfcqueue) and wait-free stack (wfstack)

A shallow embedding of `urcu/static/wfcqueue.h` and `urcu/static/wfstack.h`.

Pointers are machine addresses (`Nat`).  Memory is typed: one map gives the
`next` field of the node at an address, another the pointer cell of a queue
tail (`tail->p`) or of a stack (`s->head`).  Every C function is a function
from a memory to `Except Fault (result × memory)`; a load or store through a
pointer that designates no object is a `Fault.segv`, a wait loop that does not
finish within its fuel is a `Fault.timeout`, a failed `assert` is
`Fault.assert`.  Each function is executed by one thread without
interference, so memory only changes through the function's own stores.

`struct cds_wfcq_head` and `struct cds_wfs_head` have their node as first
member, so `&head->node` and `caa_container_of` are the identity on addresses.
The pthread mutex of the convenience wrappers is not part of the modelled
memory; `pthread_mutex_init` is taken to succeed.
-/

namespace Urcu

/-- Machine address. -/
abbrev Ptr := Nat

/-- The null pointer. -/
def NULL : Ptr := 0

/-- Modelled from the spec: `CDS_WFCQ_WOULDBLOCK` is declared in `urcu/wfcqueue.h`,
which is not among the sources; the spec calls it "a distinguished non-null,
non-node pointer value".  The all-ones address of a 64-bit machine is used. -/
def CDS_WFCQ_WOULDBLOCK : Ptr := 2 ^ 64 - 1

/-- Source constant `#define CDS_WFS_END ((void *) 0x1UL)` -/
def CDS_WFS_END : Ptr := 1

/-- Source constant `#define WFCQ_ADAPT_ATTEMPTS 10` -/
def WFCQ_ADAPT_ATTEMPTS : Nat := 10

/-- Source constant `#define WFCQ_WAIT 10` -/
def WFCQ_WAIT : Nat := 10

/-- Source constant `#define CDS_WFS_ADAPT_ATTEMPTS 10` -/
def CDS_WFS_ADAPT_ATTEMPTS : Nat := 10

/-- Source constant `#define CDS_WFS_WAIT 10` -/
def CDS_WFS_WAIT : Nat := 10

/-- Ways in which a call does not return a value. -/
inductive Fault where
  /-- load or store through a pointer that designates no object -/
  | segv (addr : Ptr)
  /-- the wait loop was still waiting when the fuel ran out -/
  | timeout
  /-- an `assert` failed -/
  | assert
  deriving DecidableEq, Repr

/-- What a wait loop does while it waits. -/
inductive WaitEv where
  /-- `caa_cpu_relax()` -/
  | cpu_relax
  /-- `poll(NULL, 0, ms)` -/
  | poll (ms : Nat)
  deriving DecidableEq, Repr

/-! ## wfcqueue: memory -/

/-- Memory seen by the queue code: the `next` field of every node and the
`p` field of every `struct cds_wfcq_tail`. -/
structure QMem where
  next : Ptr → Ptr
  p : Ptr → Ptr

/-- An address at which a queue object (node, head or tail) can live: neither
null nor the would-block value. -/
def qvalid (a : Ptr) : Bool := a != NULL && a != CDS_WFCQ_WOULDBLOCK

/-- Embedding of `CMM_LOAD_SHARED(node->next)` -/
def qload_next (node : Ptr) (m : QMem) : Except Fault Ptr :=
  if qvalid node then .ok (m.next node) else .error (.segv node)

/-- Embedding of `CMM_STORE_SHARED(node->next, v)` and plain `node->next = v` -/
def qstore_next (node v : Ptr) (m : QMem) : Except Fault QMem :=
  if qvalid node then .ok { m with next := fun a => if a = node then v else m.next a }
  else .error (.segv node)

/-- Embedding of `CMM_LOAD_SHARED(tail->p)` -/
def qload_p (tail : Ptr) (m : QMem) : Except Fault Ptr :=
  if qvalid tail then .ok (m.p tail) else .error (.segv tail)

/-- Embedding of `tail->p = v` -/
def qstore_p (tail v : Ptr) (m : QMem) : Except Fault QMem :=
  if qvalid tail then .ok { m with p := fun a => if a = tail then v else m.p a }
  else .error (.segv tail)

/-- Embedding of `uatomic_xchg(&tail->p, v)`: returns the old value. -/
def quatomic_xchg_p (tail v : Ptr) (m : QMem) : Except Fault (Ptr × QMem) :=
  if qvalid tail then
    .ok (m.p tail, { m with p := fun a => if a = tail then v else m.p a })
  else .error (.segv tail)

/-- Embedding of `uatomic_cmpxchg(&tail->p, old, new)`: returns the value read; stores
`new` when that value is `old`. -/
def quatomic_cmpxchg_p (tail old new : Ptr) (m : QMem) : Except Fault (Ptr × QMem) :=
  if qvalid tail then
    if m.p tail = old then
      .ok (m.p tail, { m with p := fun a => if a = tail then new else m.p a })
    else .ok (m.p tail, m)
  else .error (.segv tail)

/-! ## wfcqueue: operations -/

/-- Embedding of `_cds_wfcq_node_init` -/
def _cds_wfcq_node_init (node : Ptr) (m : QMem) : Except Fault QMem :=
  qstore_next node NULL m

/-- Embedding of `_cds_wfcq_init` -/
def _cds_wfcq_init (head tail : Ptr) (m : QMem) : Except Fault QMem := do
  let m1 ← _cds_wfcq_node_init head m
  qstore_p tail head m1

/-- Embedding of `_cds_wfcq_empty`; the second load happens only when the first gave null. -/
def _cds_wfcq_empty (head tail : Ptr) (m : QMem) : Except Fault Bool := do
  let n ← qload_next head m
  if n = NULL then
    let t ← qload_p tail m
    pure (decide (t = head))
  else
    pure false

/-- Embedding of `___cds_wfcq_append` -/
def ___cds_wfcq_append (_head tail new_head new_tail : Ptr) (m : QMem) :
    Except Fault QMem := do
  let (old_tail, m1) ← quatomic_xchg_p tail new_tail m
  qstore_next old_tail new_head m1

/-- Embedding of `_cds_wfcq_enqueue` -/
def _cds_wfcq_enqueue (head tail new_tail : Ptr) (m : QMem) : Except Fault QMem :=
  ___cds_wfcq_append head tail new_tail new_tail m

/-- The `while` loop of `___cds_wfcq_node_sync_next`.  `loads i` is the value the
`i`-th execution of `CMM_LOAD_SHARED(node->next)` yields, `attempt` the local
counter, `tr` the hints and sleeps issued so far; one unit of fuel is one
evaluation of the loop condition. -/
def wfcq_sync_loop (blocking : Bool) (loads : Nat → Ptr) :
    Nat → Nat → Nat → List WaitEv → Except Fault Ptr × List WaitEv
  | 0, _, _, tr => (.error .timeout, tr)
  | fuel + 1, i, attempt, tr =>
    if loads i = NULL then
      if !blocking then (.ok CDS_WFCQ_WOULDBLOCK, tr)
      else if attempt + 1 ≥ WFCQ_ADAPT_ATTEMPTS then
        wfcq_sync_loop blocking loads fuel (i + 1) 0 (tr ++ [.poll WFCQ_WAIT])
      else
        wfcq_sync_loop blocking loads fuel (i + 1) (attempt + 1) (tr ++ [.cpu_relax])
    else (.ok (loads i), tr)

/-- Embedding of `___cds_wfcq_node_sync_next`, run without interference: every load of
`node->next` reads the same memory. -/
def ___cds_wfcq_node_sync_next (node : Ptr) (blocking : Bool) (fuel : Nat) (m : QMem) :
    Except Fault Ptr :=
  if qvalid node then
    (wfcq_sync_loop blocking (fun _ => m.next node) fuel 0 0 []).1
  else .error (.segv node)

/-- Embedding of `___cds_wfcq_first` -/
def ___cds_wfcq_first (head tail : Ptr) (blocking : Bool) (fuel : Nat) (m : QMem) :
    Except Fault (Ptr × QMem) := do
  if (← _cds_wfcq_empty head tail m) then
    pure (NULL, m)
  else
    let node ← ___cds_wfcq_node_sync_next head blocking fuel m
    pure (node, m)

/-- Embedding of `___cds_wfcq_first_blocking` -/
def ___cds_wfcq_first_blocking (head tail : Ptr) (fuel : Nat) (m : QMem) :
    Except Fault (Ptr × QMem) :=
  ___cds_wfcq_first head tail true fuel m

/-- Embedding of `___cds_wfcq_first_nonblocking`; a non-blocking wait evaluates its loop
condition once, so one unit of fuel is all it can use. -/
def ___cds_wfcq_first_nonblocking (head tail : Ptr) (m : QMem) :
    Except Fault (Ptr × QMem) :=
  ___cds_wfcq_first head tail false 1 m

/-- Embedding of `___cds_wfcq_next` -/
def ___cds_wfcq_next (_head tail node : Ptr) (blocking : Bool) (fuel : Nat) (m : QMem) :
    Except Fault (Ptr × QMem) := do
  let next ← qload_next node m
  if next = NULL then
    let t ← qload_p tail m
    if t = node then
      pure (NULL, m)
    else
      let next ← ___cds_wfcq_node_sync_next node blocking fuel m
      pure (next, m)
  else
    pure (next, m)

/-- Embedding of `___cds_wfcq_next_blocking` -/
def ___cds_wfcq_next_blocking (head tail node : Ptr) (fuel : Nat) (m : QMem) :
    Except Fault (Ptr × QMem) :=
  ___cds_wfcq_next head tail node true fuel m

/-- Embedding of `___cds_wfcq_next_nonblocking` -/
def ___cds_wfcq_next_nonblocking (head tail node : Ptr) (m : QMem) :
    Except Fault (Ptr × QMem) :=
  ___cds_wfcq_next head tail node false 1 m

/-- Embedding of `___cds_wfcq_dequeue` -/
def ___cds_wfcq_dequeue (head tail : Ptr) (blocking : Bool) (fuel : Nat) (m : QMem) :
    Except Fault (Ptr × QMem) := do
  if (← _cds_wfcq_empty head tail m) then
    pure (NULL, m)
  else
    let node ← ___cds_wfcq_node_sync_next head blocking fuel m
    let next ← qload_next node m
    if next = NULL then
      let m1 ← _cds_wfcq_node_init head m
      let (old, m2) ← quatomic_cmpxchg_p tail node head m1
      if old = node then
        pure (node, m2)
      else
        let next ← ___cds_wfcq_node_sync_next node blocking fuel m2
        let m3 ← qstore_next head next m2
        pure (node, m3)
    else
      let m1 ← qstore_next head next m
      pure (node, m1)

/-- Embedding of `___cds_wfcq_dequeue_blocking` -/
def ___cds_wfcq_dequeue_blocking (head tail : Ptr) (fuel : Nat) (m : QMem) :
    Except Fault (Ptr × QMem) :=
  ___cds_wfcq_dequeue head tail true fuel m

/-- Embedding of `___cds_wfcq_dequeue_nonblocking` -/
def ___cds_wfcq_dequeue_nonblocking (head tail : Ptr) (m : QMem) :
    Except Fault (Ptr × QMem) :=
  ___cds_wfcq_dequeue head tail false 1 m

/-- Embedding of `___cds_wfcq_splice`; the `int` result is `0` or `-1`. -/
def ___cds_wfcq_splice (dest_q_head dest_q_tail src_q_head src_q_tail : Ptr)
    (blocking : Bool) (fuel : Nat) (m : QMem) : Except Fault (Int × QMem) := do
  if (← _cds_wfcq_empty src_q_head src_q_tail m) then
    pure (0, m)
  else
    let head ← ___cds_wfcq_node_sync_next src_q_head blocking fuel m
    if head = CDS_WFCQ_WOULDBLOCK then
      pure (-1, m)
    else
      let m1 ← _cds_wfcq_node_init src_q_head m
      let (tail, m2) ← quatomic_xchg_p src_q_tail src_q_head m1
      let m3 ← ___cds_wfcq_append dest_q_head dest_q_tail head tail m2
      pure (0, m3)

/-- Embedding of `___cds_wfcq_splice_blocking`; the result of `___cds_wfcq_splice` is dropped. -/
def ___cds_wfcq_splice_blocking (dest_q_head dest_q_tail src_q_head src_q_tail : Ptr)
    (fuel : Nat) (m : QMem) : Except Fault QMem := do
  let (_, m1) ← ___cds_wfcq_splice dest_q_head dest_q_tail src_q_head src_q_tail true fuel m
  pure m1

/-- Embedding of `___cds_wfcq_splice_nonblocking` -/
def ___cds_wfcq_splice_nonblocking (dest_q_head dest_q_tail src_q_head src_q_tail : Ptr)
    (m : QMem) : Except Fault (Int × QMem) :=
  ___cds_wfcq_splice dest_q_head dest_q_tail src_q_head src_q_tail false 1 m

/-- An operation of a sequential client of the queue: `enqueue node` stands for
`_cds_wfcq_node_init(node)` followed by `_cds_wfcq_enqueue(head, tail, node)`,
`dequeue` for `___cds_wfcq_dequeue_blocking(head, tail)`. -/
inductive QOp where
  | enqueue (node : Ptr)
  | dequeue
  deriving DecidableEq, Repr

/-- Runs the operations one after the other on the queue `(head, tail)`, each to
completion, and collects what the dequeues return. -/
def qrun (head tail : Ptr) (fuel : Nat) : List QOp → QMem → Except Fault (List Ptr × QMem)
  | [], m => pure ([], m)
  | .enqueue node :: ops, m => do
    let m1 ← _cds_wfcq_node_init node m
    let m2 ← _cds_wfcq_enqueue head tail node m1
    qrun head tail fuel ops m2
  | .dequeue :: ops, m => do
    let (r, m1) ← ___cds_wfcq_dequeue_blocking head tail fuel m
    let (rs, m2) ← qrun head tail fuel ops m1
    pure (r :: rs, m2)

/-- The nodes a sequence of operations enqueues, in order. -/
def qenqueued : List QOp → List Ptr
  | [] => []
  | .enqueue node :: ops => node :: qenqueued ops
  | .dequeue :: ops => qenqueued ops

/-- Reference FIFO, from the spec's words: `contents` lists the nodes enqueued and
not yet dequeued, oldest first; a dequeue yields the oldest one, or null when
there is none.  Returns what the dequeues yield and the final contents. -/
def fifo : List QOp → List Ptr → List Ptr × List Ptr
  | [], contents => ([], contents)
  | .enqueue node :: ops, contents => fifo ops (contents ++ [node])
  | .dequeue :: ops, [] => let r := fifo ops []; (NULL :: r.1, r.2)
  | .dequeue :: ops, oldest :: rest => let r := fifo ops rest; (oldest :: r.1, r.2)

/-! ## wfstack: memory -/

/-- Memory seen by the stack code: the `next` field of every node and the
`head` field of every `struct cds_wfs_stack`. -/
structure SMem where
  next : Ptr → Ptr
  head : Ptr → Ptr

/-- An address at which a stack object (node or stack) can live: neither null
nor `CDS_WFS_END`. -/
def svalid (a : Ptr) : Bool := a != NULL && a != CDS_WFS_END

/-- Embedding of `CMM_LOAD_SHARED(node->next)` -/
def sload_next (node : Ptr) (m : SMem) : Except Fault Ptr :=
  if svalid node then .ok (m.next node) else .error (.segv node)

/-- Embedding of `CMM_STORE_SHARED(node->next, v)` and plain `node->next = v` -/
def sstore_next (node v : Ptr) (m : SMem) : Except Fault SMem :=
  if svalid node then .ok { m with next := fun a => if a = node then v else m.next a }
  else .error (.segv node)

/-- Embedding of `CMM_LOAD_SHARED(s->head)` -/
def sload_head (s : Ptr) (m : SMem) : Except Fault Ptr :=
  if svalid s then .ok (m.head s) else .error (.segv s)

/-- Embedding of `s->head = v` -/
def sstore_head (s v : Ptr) (m : SMem) : Except Fault SMem :=
  if svalid s then .ok { m with head := fun a => if a = s then v else m.head a }
  else .error (.segv s)

/-- Embedding of `uatomic_xchg(&s->head, v)`: returns the old value. -/
def suatomic_xchg_head (s v : Ptr) (m : SMem) : Except Fault (Ptr × SMem) :=
  if svalid s then
    .ok (m.head s, { m with head := fun a => if a = s then v else m.head a })
  else .error (.segv s)

/-- Embedding of `uatomic_cmpxchg(&s->head, old, new)`: returns the value read; stores `new`
when that value is `old`. -/
def suatomic_cmpxchg_head (s old new : Ptr) (m : SMem) : Except Fault (Ptr × SMem) :=
  if svalid s then
    if m.head s = old then
      .ok (m.head s, { m with head := fun a => if a = s then new else m.head a })
    else .ok (m.head s, m)
  else .error (.segv s)

/-! ## wfstack: operations -/

/-- Embedding of `_cds_wfs_node_init` -/
def _cds_wfs_node_init (node : Ptr) (m : SMem) : Except Fault SMem :=
  sstore_next node NULL m

/-- Embedding of `_cds_wfs_init` -/
def _cds_wfs_init (s : Ptr) (m : SMem) : Except Fault SMem :=
  sstore_head s CDS_WFS_END m

/-- Embedding of `___cds_wfs_end` -/
def ___cds_wfs_end (node : Ptr) : Bool := decide (node = CDS_WFS_END)

/-- Embedding of `_cds_wfs_empty` -/
def _cds_wfs_empty (s : Ptr) (m : SMem) : Except Fault Bool := do
  let h ← sload_head s m
  pure (___cds_wfs_end h)

/-- Embedding of `_cds_wfs_push`; the `int` result is `!___cds_wfs_end(old_head)`, `0` or `1`. -/
def _cds_wfs_push (s node : Ptr) (m : SMem) : Except Fault (Int × SMem) := do
  let n ← sload_next node m
  if n = NULL then
    let (old_head, m1) ← suatomic_xchg_head s node m
    let m2 ← sstore_next node old_head m1
    pure (if ___cds_wfs_end old_head then 0 else 1, m2)
  else
    .error .assert

/-- The `while` loop of `___cds_wfs_node_sync_next`; see `wfcq_sync_loop`. -/
def wfs_sync_loop (loads : Nat → Ptr) :
    Nat → Nat → Nat → List WaitEv → Except Fault Ptr × List WaitEv
  | 0, _, _, tr => (.error .timeout, tr)
  | fuel + 1, i, attempt, tr =>
    if loads i = NULL then
      if attempt + 1 ≥ CDS_WFS_ADAPT_ATTEMPTS then
        wfs_sync_loop loads fuel (i + 1) 0 (tr ++ [.poll CDS_WFS_WAIT])
      else
        wfs_sync_loop loads fuel (i + 1) (attempt + 1) (tr ++ [.cpu_relax])
    else (.ok (loads i), tr)

/-- Embedding of `___cds_wfs_node_sync_next`, run without interference. -/
def ___cds_wfs_node_sync_next (node : Ptr) (fuel : Nat) (m : SMem) : Except Fault Ptr :=
  if svalid node then
    (wfs_sync_loop (fun _ => m.next node) fuel 0 0 []).1
  else .error (.segv node)

/-- The `for (;;)` loop of `___cds_wfs_pop_blocking`; the first argument bounds
the number of iterations, `fuel` each wait for `next`. -/
def wfs_pop_loop (s : Ptr) (fuel : Nat) : Nat → SMem → Except Fault (Ptr × SMem)
  | 0, _ => .error .timeout
  | tries + 1, m => do
    let head ← sload_head s m
    if ___cds_wfs_end head then
      pure (NULL, m)
    else
      let next ← ___cds_wfs_node_sync_next head fuel m
      let (old, m1) ← suatomic_cmpxchg_head s head next m
      if old = head then
        pure (head, m1)
      else
        wfs_pop_loop s fuel tries m1

/-- Embedding of `___cds_wfs_pop_blocking` -/
def ___cds_wfs_pop_blocking (s : Ptr) (fuel : Nat) (m : SMem) : Except Fault (Ptr × SMem) :=
  wfs_pop_loop s fuel fuel m

/-- Embedding of `___cds_wfs_pop_all` -/
def ___cds_wfs_pop_all (s : Ptr) (m : SMem) : Except Fault (Ptr × SMem) := do
  let (head, m1) ← suatomic_xchg_head s CDS_WFS_END m
  if ___cds_wfs_end head then
    pure (NULL, m1)
  else
    pure (head, m1)

/-- Embedding of `_cds_wfs_first_blocking`; it reads no memory. -/
def _cds_wfs_first_blocking (head : Ptr) : Ptr :=
  if ___cds_wfs_end head then NULL else head

/-- Embedding of `_cds_wfs_next_blocking` -/
def _cds_wfs_next_blocking (node : Ptr) (fuel : Nat) (m : SMem) : Except Fault (Ptr × SMem) := do
  let next ← ___cds_wfs_node_sync_next node fuel m
  if ___cds_wfs_end next then
    pure (NULL, m)
  else
    pure (next, m)

/-- Modelled from the spec: the iteration macro `cds_wfs_for_each_blocking` is in
`urcu/wfstack.h`, which is not among the sources; the spec gives its contract as
the `first`/`next` pair.  This is the traversal
`for (node = first(head); node != NULL; node = next(node))` from `node` on, with
at most `steps` tests of `node != NULL`: it returns the nodes visited, and it
returns them only once `next` has returned null. -/
def wfs_for_each_from (fuel : Nat) : Nat → Ptr → SMem → Except Fault (List Ptr × SMem)
  | 0, _, _ => .error .timeout
  | steps + 1, node, m =>
    if node = NULL then
      pure ([], m)
    else do
      let (next, m1) ← _cds_wfs_next_blocking node fuel m
      let (rest, m2) ← wfs_for_each_from fuel steps next m1
      pure (node :: rest, m2)

/-- Iteration over a popped chain with `_cds_wfs_first_blocking` and
`_cds_wfs_next_blocking`. -/
def wfs_for_each (head : Ptr) (fuel steps : Nat) (m : SMem) : Except Fault (List Ptr × SMem) :=
  wfs_for_each_from fuel steps (_cds_wfs_first_blocking head) m

/-- An operation of a sequential client of the stack: `push node` stands for
`_cds_wfs_node_init(node)` followed by `_cds_wfs_push(s, node)`, `pop` for
`___cds_wfs_pop_blocking(s)`. -/
inductive SOp where
  | push (node : Ptr)
  | pop
  deriving DecidableEq, Repr

/-- Runs the operations one after the other on the stack `s`, each to completion,
and collects what the pops return. -/
def srun (s : Ptr) (fuel : Nat) : List SOp → SMem → Except Fault (List Ptr × SMem)
  | [], m => pure ([], m)
  | .push node :: ops, m => do
    let m1 ← _cds_wfs_node_init node m
    let (_, m2) ← _cds_wfs_push s node m1
    srun s fuel ops m2
  | .pop :: ops, m => do
    let (r, m1) ← ___cds_wfs_pop_blocking s fuel m
    let (rs, m2) ← srun s fuel ops m1
    pure (r :: rs, m2)

/-- The nodes a sequence of operations pushes, in order. -/
def spushed : List SOp → List Ptr
  | [] => []
  | .push node :: ops => node :: spushed ops
  | .pop :: ops => spushed ops

/-- Reference LIFO, from the spec's words: `contents` lists the nodes pushed and
not yet popped, most recent first; a pop yields the most recent one, or null
when there is none.  Returns what the pops yield and the final contents. -/
def lifo : List SOp → List Ptr → List Ptr × List Ptr
  | [], contents => ([], contents)
  | .push node :: ops, contents => lifo ops (node :: contents)
  | .pop :: ops, [] => let r := lifo ops []; (NULL :: r.1, r.2)
  | .pop :: ops, top :: rest => let r := lifo ops rest; (top :: r.1, r.2)

/-- Pushes the nodes in list order, each after `_cds_wfs_node_init`. -/
def wfs_push_all (s : Ptr) : List Ptr → SMem → Except Fault SMem
  | [], m => pure m
  | node :: nodes, m => do
    let m1 ← _cds_wfs_node_init node m
    let (_, m2) ← _cds_wfs_push s node m1
    wfs_push_all s nodes m2

/-! ## Quiescent states -/

/-- Following `next` from `a` passes through the nodes `l` in order and stops at `last`. -/
def QChain (m : QMem) : Ptr → List Ptr → Ptr → Prop
  | a, [], last => a = last
  | a, b :: l, last => m.next a = b ∧ QChain m b l last

/-- The queue `(head, tail)` is quiescent with contents `l`, oldest first: `head`,
`tail` and the nodes are objects, the sentinel and the nodes are pairwise
distinct, the sentinel's `next` chain runs through `l` to `tail->p`, and the
last node's `next` is null (no enqueue is in flight). -/
def QRepr (m : QMem) (head tail : Ptr) (l : List Ptr) : Prop :=
  qvalid head = true ∧ qvalid tail = true ∧ (∀ n ∈ l, qvalid n = true) ∧
  (head :: l).Nodup ∧ QChain m head l (m.p tail) ∧ m.next (m.p tail) = NULL

/-- The chain that starts at pointer `top` runs through the nodes `l` in order and
ends with `CDS_WFS_END`. -/
def SChain (m : SMem) : Ptr → List Ptr → Prop
  | top, [] => top = CDS_WFS_END
  | top, a :: l => top = a ∧ SChain m (m.next a) l

/-- The stack `s` is quiescent with contents `l`, most recent first: `s` and the
nodes are objects, the nodes are pairwise distinct, and `s->head` starts a
chain through `l` to `CDS_WFS_END` (no push is in flight). -/
def SRepr (m : SMem) (s : Ptr) (l : List Ptr) : Prop :=
  svalid s = true ∧ (∀ n ∈ l, svalid n = true) ∧ l.Nodup ∧ SChain m (m.head s) l

/-- Decision procedure for `QChain`. -/
instance QChain.decide (m : QMem) : ∀ (a : Ptr) (l : List Ptr) (last : Ptr),
    Decidable (QChain m a l last)
  | a, [], last => inferInstanceAs (Decidable (a = last))
  | _, b :: l, last => @instDecidableAnd _ _ _ (QChain.decide m b l last)

instance QRepr.decide (m : QMem) (head tail : Ptr) (l : List Ptr) :
    Decidable (QRepr m head tail l) := by
  unfold QRepr
  infer_instance

/-- Decision procedure for `SChain`. -/
instance SChain.decide (m : SMem) : ∀ (top : Ptr) (l : List Ptr), Decidable (SChain m top l)
  | top, [] => inferInstanceAs (Decidable (top = CDS_WFS_END))
  | _, a :: l => @instDecidableAnd _ _ _ (SChain.decide m (m.next a) l)

instance SRepr.decide (m : SMem) (s : Ptr) (l : List Ptr) : Decidable (SRepr m s l) := by
  unfold SRepr
  infer_instance

/-- A memory with two quiescent queues: `(1, 2)` holds nodes 40, 50 and `(3, 4)`
holds nodes 10, 20, 30. -/
def qmem_two_queues : QMem where
  next := fun a =>
    if a = 1 then 40 else if a = 40 then 50 else
    if a = 3 then 10 else if a = 10 then 20 else if a = 20 then 30 else 0
  p := fun a => if a = 2 then 50 else 30

/-- First statement of `___cds_wfcq_append`: `old_tail = uatomic_xchg(&tail->p, new_tail)`.
It returns `old_tail` and the memory in which the enqueue is in flight. -/
def ___cds_wfcq_append_xchg (tail new_tail : Ptr) (m : QMem) : Except Fault (Ptr × QMem) :=
  quatomic_xchg_p tail new_tail m

/-- Second statement of `___cds_wfcq_append`: `CMM_STORE_SHARED(old_tail->next, new_head)`. -/
def ___cds_wfcq_append_store (old_tail new_head : Ptr) (m : QMem) : Except Fault QMem :=
  qstore_next old_tail new_head m

/-- Reference backoff schedule, from the spec's words ("CPU relaxation hints, then a
10 ms sleep, then repeat"): what a wait issues over `j` waiting rounds, namely
`j / 10` full cycles of nine hints followed by one 10 ms sleep, and then the
`j % 10` hints of the cycle under way. -/
def backoff_schedule (j : Nat) : List WaitEv :=
  (List.replicate (j / 10)
      (List.replicate 9 WaitEv.cpu_relax ++ [WaitEv.poll 10])).flatten
    ++ List.replicate (j % 10) WaitEv.cpu_relax

/-- The event of waiting round `k` (counted from 0) when the counter `attempt` was
`a` at round 0: a sleep when the counter reaches ten, a hint otherwise. -/
def backoff_event (a k : Nat) : WaitEv :=
  if (a + k + 1) % 10 = 0 then WaitEv.poll 10 else WaitEv.cpu_relax

/-- A memory with the queue `(1, 2)` holding node 10 while the enqueuer of node 20
has exchanged `tail->p` and not yet stored `10->next`. -/
def qmem_inflight_second : QMem where
  next := fun a => if a = 1 then 10 else 0
  p := fun _ => 20

/-- A memory with the empty queue `(1, 2)` and the queue `(3, 4)` holding node 10
while the enqueuer of node 20 has exchanged `tail->p` of `(3, 4)` and not yet stored
`10->next`. -/
def qmem_empty_and_inflight : QMem where
  next := fun a => if a = 3 then 10 else 0
  p := fun a => if a = 2 then 1 else 20

/-- A memory with the quiescent stack at address 3 holding 30, 20, 10 from the top. -/
def smem_three : SMem where
  next := fun a => if a = 30 then 20 else if a = 20 then 10 else if a = 10 then 1 else 0
  head := fun _ => 30

/-- Client loop `while ((node = ___cds_wfs_pop_blocking(s)) != NULL)`, with at most
`steps` pops: the nodes popped before a pop returned null, and the memory then. -/
def wfs_pop_until_null (s : Ptr) (fuel : Nat) : Nat → SMem → Except Fault (List Ptr × SMem)
  | 0, _ => .error .timeout
  | steps + 1, m => do
    let (r, m1) ← ___cds_wfs_pop_blocking s fuel m
    if r = NULL then
      pure ([], m1)
    else
      let (rest, m2) ← wfs_pop_until_null s fuel steps m1
      pure (r :: rest, m2)

/-! ## Basic facts about the primitives -/

theorem wfcq_sync_loop_value (blocking : Bool) (loads : Nat → Ptr) (fuel i attempt : Nat)
    (tr : List WaitEv) (h : loads i ≠ NULL) :
    wfcq_sync_loop blocking loads (fuel + 1) i attempt tr = (.ok (loads i), tr) := by
  simp [wfcq_sync_loop, h]

theorem wfcq_sync_next_value (node : Ptr) (blocking : Bool) (fuel : Nat) (m : QMem)
    (hv : qvalid node = true) (h : m.next node ≠ NULL) (hf : 1 ≤ fuel) :
    ___cds_wfcq_node_sync_next node blocking fuel m = .ok (m.next node) := by
  obtain ⟨k, rfl⟩ : ∃ k, fuel = k + 1 := ⟨fuel - 1, by omega⟩
  simp [___cds_wfcq_node_sync_next, hv, wfcq_sync_loop, h]

theorem wfcq_sync_next_wouldblock (node : Ptr) (m : QMem)
    (hv : qvalid node = true) (h : m.next node = NULL) :
    ___cds_wfcq_node_sync_next node false 1 m = .ok CDS_WFCQ_WOULDBLOCK := by
  simp [___cds_wfcq_node_sync_next, hv, wfcq_sync_loop, h]

theorem qvalid_ne_null {a : Ptr} (h : qvalid a = true) : a ≠ NULL := by
  simp [qvalid] at h
  exact h.1

theorem qvalid_ne_wouldblock {a : Ptr} (h : qvalid a = true) : a ≠ CDS_WFCQ_WOULDBLOCK := by
  simp [qvalid] at h
  exact h.2

theorem not_qvalid_wouldblock : qvalid CDS_WFCQ_WOULDBLOCK = false := by
  simp [qvalid]

theorem wfcq_empty_eq (head tail : Ptr) (m : QMem)
    (hh : qvalid head = true) (ht : qvalid tail = true) :
    _cds_wfcq_empty head tail m
      = .ok (decide (m.next head = NULL) && decide (m.p tail = head)) := by
  by_cases h : m.next head = NULL <;>
    simp [_cds_wfcq_empty, qload_next, qload_p, hh, ht, h, bind, Except.bind, pure, Except.pure]

/-! ## Queue: empty queue, non-blocking variants -/

/-- C6: right after `_cds_wfcq_init` the queue is empty, and `first` and `dequeue`,
blocking (whatever the fuel) and non-blocking, return null and leave the memory
as it is, so the queue is still empty afterwards. -/
theorem wfcq_init_empty (head tail : Ptr) (m0 : QMem) (fuel : Nat)
    (hh : qvalid head = true) (ht : qvalid tail = true) :
    ∃ m, _cds_wfcq_init head tail m0 = .ok m ∧
      m.next head = NULL ∧ m.p tail = head ∧
      _cds_wfcq_empty head tail m = .ok true ∧
      ___cds_wfcq_first_blocking head tail fuel m = .ok (NULL, m) ∧
      ___cds_wfcq_first_nonblocking head tail m = .ok (NULL, m) ∧
      ___cds_wfcq_dequeue_blocking head tail fuel m = .ok (NULL, m) ∧
      ___cds_wfcq_dequeue_nonblocking head tail m = .ok (NULL, m) := by
  refine ⟨_, by simp [_cds_wfcq_init, _cds_wfcq_node_init, qstore_next, qstore_p, hh, ht,
    bind, Except.bind]; rfl, ?_⟩
  have he : _cds_wfcq_empty head tail
      { next := fun a => if a = head then NULL else m0.next a,
        p := fun a => if a = tail then head else m0.p a } = .ok true := by
    simp [wfcq_empty_eq, hh, ht]
  simp [___cds_wfcq_first_blocking, ___cds_wfcq_first_nonblocking, ___cds_wfcq_first,
    ___cds_wfcq_dequeue_blocking, ___cds_wfcq_dequeue_nonblocking, ___cds_wfcq_dequeue,
    he, bind, Except.bind, pure, Except.pure]

/-- Witness of C6 on the queue with head at address 1 and tail at address 2. -/
theorem wfcq_init_empty_witness :
    ∃ m, _cds_wfcq_init 1 2 ⟨fun _ => 7, fun _ => 7⟩ = .ok m ∧
      m.next 1 = NULL ∧ m.p 2 = 1 ∧
      _cds_wfcq_empty 1 2 m = .ok true ∧
      ___cds_wfcq_first_blocking 1 2 5 m = .ok (NULL, m) ∧
      ___cds_wfcq_first_nonblocking 1 2 m = .ok (NULL, m) ∧
      ___cds_wfcq_dequeue_blocking 1 2 5 m = .ok (NULL, m) ∧
      ___cds_wfcq_dequeue_nonblocking 1 2 m = .ok (NULL, m) :=
  wfcq_init_empty 1 2 ⟨fun _ => 7, fun _ => 7⟩ 5 (by decide) (by decide)

/-- C10: `___cds_wfcq_next_nonblocking` returns `node->next` when that is not
null, null when it is null and `tail->p` is `node`, and the would-block value
when it is null and `tail->p` is another pointer; memory is unchanged. -/
theorem wfcq_next_nonblocking_three_way (head tail node : Ptr) (m : QMem)
    (hn : qvalid node = true) (ht : qvalid tail = true) :
    (m.next node ≠ NULL →
      ___cds_wfcq_next_nonblocking head tail node m = .ok (m.next node, m)) ∧
    (m.next node = NULL → m.p tail = node →
      ___cds_wfcq_next_nonblocking head tail node m = .ok (NULL, m)) ∧
    (m.next node = NULL → m.p tail ≠ node →
      ___cds_wfcq_next_nonblocking head tail node m = .ok (CDS_WFCQ_WOULDBLOCK, m)) := by
  refine ⟨fun h => ?_, fun h h2 => ?_, fun h h2 => ?_⟩
  · simp [___cds_wfcq_next_nonblocking, ___cds_wfcq_next, qload_next, hn, h,
      bind, Except.bind, pure, Except.pure]
  · simp [___cds_wfcq_next_nonblocking, ___cds_wfcq_next, qload_next, qload_p, hn, ht, h, h2,
      bind, Except.bind, pure, Except.pure]
  · simp [___cds_wfcq_next_nonblocking, ___cds_wfcq_next, qload_next, qload_p, hn, ht, h, h2,
      wfcq_sync_next_wouldblock, bind, Except.bind, pure, Except.pure]

/-- Witness of C10: node 10 with `next` 20, then null with `tail->p` 10, then null
with `tail->p` 20. -/
theorem wfcq_next_nonblocking_three_way_witness :
    ___cds_wfcq_next_nonblocking 1 2 10 ⟨fun a => if a = 10 then 20 else 0, fun _ => 20⟩
      = .ok (20, ⟨fun a => if a = 10 then 20 else 0, fun _ => 20⟩) ∧
    ___cds_wfcq_next_nonblocking 1 2 10 ⟨fun _ => 0, fun _ => 10⟩
      = .ok (NULL, ⟨fun _ => 0, fun _ => 10⟩) ∧
    ___cds_wfcq_next_nonblocking 1 2 10 ⟨fun _ => 0, fun _ => 20⟩
      = .ok (CDS_WFCQ_WOULDBLOCK, ⟨fun _ => 0, fun _ => 20⟩) :=
  ⟨(wfcq_next_nonblocking_three_way 1 2 10 ⟨fun a => if a = 10 then 20 else 0, fun _ => 20⟩
      (by decide) (by decide)).1 (by decide),
   (wfcq_next_nonblocking_three_way 1 2 10 ⟨fun _ => 0, fun _ => 10⟩
      (by decide) (by decide)).2.1 rfl rfl,
   (wfcq_next_nonblocking_three_way 1 2 10 ⟨fun _ => 0, fun _ => 20⟩
      (by decide) (by decide)).2.2 rfl (by decide)⟩

/-- C7 (the code departs from it): when `head->node.next` is null and `tail->p` is
not the sentinel, `___cds_wfcq_dequeue_nonblocking` does not return the
would-block value: it takes the value that `___cds_wfcq_node_sync_next` returned
for a node and loads `next` through it. -/
theorem wfcq_dequeue_nonblocking_inflight_first (head tail : Ptr) (m : QMem)
    (hh : qvalid head = true) (ht : qvalid tail = true)
    (h1 : m.next head = NULL) (h2 : m.p tail ≠ head) :
    ___cds_wfcq_dequeue_nonblocking head tail m = .error (.segv CDS_WFCQ_WOULDBLOCK) := by
  simp [___cds_wfcq_dequeue_nonblocking, ___cds_wfcq_dequeue, wfcq_empty_eq, hh, ht, h1, h2,
    wfcq_sync_next_wouldblock, qload_next, not_qvalid_wouldblock, bind, Except.bind]

/-- Witness of C7: head at 1, tail at 2, an enqueuer of node 10 has exchanged
`tail->p` and not yet stored `head->node.next`. -/
theorem wfcq_dequeue_nonblocking_inflight_first_witness :
    ___cds_wfcq_dequeue_nonblocking 1 2 ⟨fun _ => 0, fun _ => 10⟩
      = .error (.segv CDS_WFCQ_WOULDBLOCK) :=
  wfcq_dequeue_nonblocking_inflight_first 1 2 ⟨fun _ => 0, fun _ => 10⟩
    (by decide) (by decide) rfl (by decide)

/-- C8 (the code departs from it): when `head->node.next` is a node `N`, `N->next` is
null and `tail->p` is not `N`, `___cds_wfcq_dequeue_nonblocking` returns `N`, not the
would-block value, and stores the would-block value into `head->node.next`; the
rest of memory is unchanged, and the next dequeue, blocking or not, loads
through the would-block value. -/
theorem wfcq_dequeue_nonblocking_inflight_second (head tail N : Ptr) (m : QMem) (fuel : Nat)
    (hh : qvalid head = true) (ht : qvalid tail = true) (hN : qvalid N = true)
    (h1 : m.next head = N) (h2 : m.next N = NULL) (h3 : m.p tail ≠ N) (hf : 1 ≤ fuel) :
    ∃ m', ___cds_wfcq_dequeue_nonblocking head tail m = .ok (N, m') ∧
      m'.next head = CDS_WFCQ_WOULDBLOCK ∧
      (∀ a, a ≠ head → m'.next a = m.next a) ∧ m'.p = m.p ∧
      ___cds_wfcq_dequeue_nonblocking head tail m' = .error (.segv CDS_WFCQ_WOULDBLOCK) ∧
      ___cds_wfcq_dequeue_blocking head tail fuel m' = .error (.segv CDS_WFCQ_WOULDBLOCK) := by
  have hN0 : N ≠ NULL := qvalid_ne_null hN
  have hne : N ≠ head := by
    intro h
    rw [h] at h2
    rw [h2] at h1
    exact hN0 h1.symm
  have hw : CDS_WFCQ_WOULDBLOCK ≠ NULL := by decide
  have e1 : ___cds_wfcq_dequeue_nonblocking head tail m =
      .ok (N, { next := fun a => if a = head then CDS_WFCQ_WOULDBLOCK else
                  if a = head then NULL else m.next a, p := m.p }) := by
    have hs : ___cds_wfcq_node_sync_next N false 1
        { next := fun a => if a = head then NULL else m.next a, p := m.p }
        = .ok CDS_WFCQ_WOULDBLOCK :=
      wfcq_sync_next_wouldblock N _ hN (by simp [hne, h2])
    simp [___cds_wfcq_dequeue_nonblocking, ___cds_wfcq_dequeue, wfcq_empty_eq, hh, ht, h1, hN0,
      wfcq_sync_next_value, qload_next, hN, h2, _cds_wfcq_node_init, qstore_next,
      quatomic_cmpxchg_p, h3, hs, bind, Except.bind, pure, Except.pure]
  refine ⟨_, e1, by simp, fun a ha => by simp [ha], rfl, ?_, ?_⟩
  · simp [___cds_wfcq_dequeue_nonblocking, ___cds_wfcq_dequeue, wfcq_empty_eq, hh, ht, hw,
      wfcq_sync_next_value, qload_next, not_qvalid_wouldblock, bind, Except.bind]
  · simp [___cds_wfcq_dequeue_blocking, ___cds_wfcq_dequeue, wfcq_empty_eq, hh, ht, hw,
      wfcq_sync_next_value, hf, qload_next, not_qvalid_wouldblock, bind, Except.bind]

/-- Witness of C8: head at 1, tail at 2, node 10 linked, an enqueuer of node 20 has
exchanged `tail->p` and not yet stored `10->next`. -/
theorem wfcq_dequeue_nonblocking_inflight_second_witness :
    ∃ m', ___cds_wfcq_dequeue_nonblocking 1 2
        ⟨fun a => if a = 1 then 10 else 0, fun _ => 20⟩ = .ok (10, m') ∧
      m'.next 1 = CDS_WFCQ_WOULDBLOCK ∧
      (∀ a, a ≠ 1 → m'.next a = (if a = 1 then 10 else 0)) ∧ m'.p = (fun _ => 20) ∧
      ___cds_wfcq_dequeue_nonblocking 1 2 m' = .error (.segv CDS_WFCQ_WOULDBLOCK) ∧
      ___cds_wfcq_dequeue_blocking 1 2 3 m' = .error (.segv CDS_WFCQ_WOULDBLOCK) :=
  wfcq_dequeue_nonblocking_inflight_second 1 2 10
    ⟨fun a => if a = 1 then 10 else 0, fun _ => 20⟩ 3
    (by decide) (by decide) (by decide) rfl rfl (by decide) (by decide)

/-- Decision of `___cds_wfcq_splice_nonblocking` apart from the states that hold the
would-block value in a `next` field: when `src`'s `head->node.next` is null and
`src`'s `tail->p` is not `src`'s sentinel it returns `-1` and leaves memory (hence
both queues) unchanged; in every other state of `src` in which `head->node.next`
does not hold the would-block value it returns `0`.  The queue objects are objects and `dest` is
initialised (`dest`'s `tail->p` designates an object). -/
theorem wfcq_splice_nonblocking_decision (dest_q_head dest_q_tail src_q_head src_q_tail : Ptr)
    (m : QMem)
    (hsh : qvalid src_q_head = true) (hst : qvalid src_q_tail = true)
    (hdt : qvalid dest_q_tail = true) (hdp : qvalid (m.p dest_q_tail) = true) :
    (m.next src_q_head = NULL ∧ m.p src_q_tail ≠ src_q_head →
      ___cds_wfcq_splice_nonblocking dest_q_head dest_q_tail src_q_head src_q_tail m
        = .ok (-1, m)) ∧
    (¬ (m.next src_q_head = NULL ∧ m.p src_q_tail ≠ src_q_head) →
      m.next src_q_head ≠ CDS_WFCQ_WOULDBLOCK →
      ∃ m', ___cds_wfcq_splice_nonblocking dest_q_head dest_q_tail src_q_head src_q_tail m
        = .ok (0, m')) := by
  constructor
  · rintro ⟨h1, h2⟩
    simp [___cds_wfcq_splice_nonblocking, ___cds_wfcq_splice, wfcq_empty_eq, hsh, hst, h1, h2,
      wfcq_sync_next_wouldblock, bind, Except.bind, pure, Except.pure]
  · intro h hwf
    by_cases h1 : m.next src_q_head = NULL
    · have h2 : m.p src_q_tail = src_q_head := by
        by_contra h2
        exact h ⟨h1, h2⟩
      exact ⟨m, by simp [___cds_wfcq_splice_nonblocking, ___cds_wfcq_splice, wfcq_empty_eq,
        hsh, hst, h1, h2, bind, Except.bind, pure, Except.pure]⟩
    · by_cases hts : dest_q_tail = src_q_tail
      · subst hts
        simp [___cds_wfcq_splice_nonblocking, ___cds_wfcq_splice, wfcq_empty_eq, hsh, hst, h1,
          wfcq_sync_next_value, hwf, _cds_wfcq_node_init, qstore_next, quatomic_xchg_p,
          ___cds_wfcq_append, bind, Except.bind, pure, Except.pure]
      · simp [___cds_wfcq_splice_nonblocking, ___cds_wfcq_splice, wfcq_empty_eq, hsh, hst, h1,
          wfcq_sync_next_value, hwf, _cds_wfcq_node_init, qstore_next, quatomic_xchg_p,
          ___cds_wfcq_append, hdt, hts, hdp, bind, Except.bind, pure, Except.pure]

/-- Instance of `wfcq_splice_nonblocking_decision`: `dest` is (1, 2) and empty; `src` is
(3, 4), first with an in-flight first enqueue of node 10, then holding node 10. -/
theorem wfcq_splice_nonblocking_decision_witness :
    ___cds_wfcq_splice_nonblocking 1 2 3 4
        ⟨fun _ => 0, fun a => if a = 2 then 1 else 10⟩
      = .ok (-1, ⟨fun _ => 0, fun a => if a = 2 then 1 else 10⟩) ∧
    ∃ m', ___cds_wfcq_splice_nonblocking 1 2 3 4
        ⟨fun a => if a = 3 then 10 else 0, fun a => if a = 2 then 1 else 10⟩
      = .ok (0, m') :=
  ⟨(wfcq_splice_nonblocking_decision 1 2 3 4 ⟨fun _ => 0, fun a => if a = 2 then 1 else 10⟩
      (by decide) (by decide) (by decide) (by decide)).1 ⟨rfl, by decide⟩,
   (wfcq_splice_nonblocking_decision 1 2 3 4
      ⟨fun a => if a = 3 then 10 else 0, fun a => if a = 2 then 1 else 10⟩
      (by decide) (by decide) (by decide) (by decide)).2 (by decide) (by decide)⟩

/-! ## Stack: push -/

theorem svalid_ne_null {a : Ptr} (h : svalid a = true) : a ≠ NULL := by
  simp [svalid] at h
  exact h.1

theorem svalid_ne_end {a : Ptr} (h : svalid a = true) : a ≠ CDS_WFS_END := by
  simp [svalid] at h
  exact h.2

theorem wfs_sync_next_value (node : Ptr) (fuel : Nat) (m : SMem)
    (hv : svalid node = true) (h : m.next node ≠ NULL) (hf : 1 ≤ fuel) :
    ___cds_wfs_node_sync_next node fuel m = .ok (m.next node) := by
  obtain ⟨k, rfl⟩ : ∃ k, fuel = k + 1 := ⟨fuel - 1, by omega⟩
  simp [___cds_wfs_node_sync_next, hv, wfs_sync_loop, h]

/-- C5: for a node whose `next` is null, `_cds_wfs_push` returns `0` exactly when
the stack was empty before the push (old top is `CDS_WFS_END`) and `1` otherwise;
afterwards the top is the pushed node, its `next` is the old top and the stack
is not empty. -/
theorem wfs_push_reports_prior_empty (s node : Ptr) (m : SMem)
    (hs : svalid s = true) (hn : svalid node = true) (hnext : m.next node = NULL) :
    ∃ r m', _cds_wfs_push s node m = .ok (r, m') ∧
      (r = 0 ↔ _cds_wfs_empty s m = .ok true) ∧
      (r = 0 ↔ m.head s = CDS_WFS_END) ∧ (r ≠ 0 ↔ m.head s ≠ CDS_WFS_END) ∧
      m'.head s = node ∧ m'.next node = m.head s ∧
      _cds_wfs_empty s m' = .ok false := by
  have hne : node ≠ CDS_WFS_END := svalid_ne_end hn
  refine ⟨_, _, by simp [_cds_wfs_push, sload_next, hn, hnext, suatomic_xchg_head, hs,
    sstore_next, bind, Except.bind, pure, Except.pure]; exact ⟨rfl, rfl⟩, ?_⟩
  by_cases he : m.head s = CDS_WFS_END <;>
    simp [_cds_wfs_empty, sload_head, hs, ___cds_wfs_end, he, hne, bind, Except.bind, pure,
      Except.pure]

/-- Witness of C5: pushing node 10 on the empty stack at address 3. -/
theorem wfs_push_reports_prior_empty_witness :
    ∃ r m', _cds_wfs_push 3 10 ⟨fun _ => 0, fun _ => 1⟩ = .ok (r, m') ∧
      (r = 0 ↔ _cds_wfs_empty 3 ⟨fun _ => 0, fun _ => 1⟩ = .ok true) ∧
      (r = 0 ↔ (1 : Ptr) = CDS_WFS_END) ∧ (r ≠ 0 ↔ (1 : Ptr) ≠ CDS_WFS_END) ∧
      m'.head 3 = 10 ∧ m'.next 10 = 1 ∧
      _cds_wfs_empty 3 m' = .ok false :=
  wfs_push_reports_prior_empty 3 10 ⟨fun _ => 0, fun _ => 1⟩ (by decide) (by decide) rfl

/-! ## Queue: quiescent states and FIFO order -/

theorem qchain_last_mem (m : QMem) :
    ∀ (l : List Ptr) (a last : Ptr), QChain m a l last → last ∈ a :: l := by
  intro l
  induction l with
  | nil =>
    intro a last h
    simp [QChain] at h
    simp [h]
  | cons b l ih =>
    intro a last h
    exact List.mem_cons_of_mem _ (ih b last h.2)

theorem qchain_congr (m m' : QMem) :
    ∀ (l : List Ptr) (a last : Ptr), QChain m a l last → (a :: l).Nodup →
      (∀ x ∈ a :: l, x ≠ last → m'.next x = m.next x) → QChain m' a l last := by
  intro l
  induction l with
  | nil =>
    intro a last h _ _
    exact h
  | cons b l ih =>
    intro a last h hnd hfr
    have hmem : last ∈ b :: l := qchain_last_mem m l b last h.2
    have hal : a ≠ last := by
      intro e
      rw [e] at hnd
      exact (List.nodup_cons.mp hnd).1 hmem
    refine ⟨?_, ih b last h.2 (List.nodup_cons.mp hnd).2 ?_⟩
    · rw [hfr a (List.mem_cons_self _ _) hal]
      exact h.1
    · intro x hx hxl
      exact hfr x (List.mem_cons_of_mem _ hx) hxl

theorem qchain_append (m : QMem) :
    ∀ (l1 : List Ptr) (a x : Ptr) (l2 : List Ptr) (y : Ptr),
      QChain m a l1 x → QChain m x l2 y → QChain m a (l1 ++ l2) y := by
  intro l1
  induction l1 with
  | nil =>
    intro a x l2 y h1 h2
    simp [QChain] at h1
    subst h1
    simpa using h2
  | cons b l ih =>
    intro a x l2 y h1 h2
    exact ⟨h1.1, ih b x l2 y h1.2 h2⟩

theorem qrepr_nil_iff (m : QMem) (head tail : Ptr) :
    QRepr m head tail [] ↔
      qvalid head = true ∧ qvalid tail = true ∧ m.p tail = head ∧ m.next head = NULL := by
  constructor
  · rintro ⟨hh, ht, _, _, hc, hn⟩
    simp [QChain] at hc
    rw [← hc] at hn
    exact ⟨hh, ht, hc.symm, hn⟩
  · rintro ⟨hh, ht, hp, hn⟩
    refine ⟨hh, ht, by simp, by simp, ?_, ?_⟩
    · simp [QChain, hp]
    · rw [hp]
      exact hn

theorem qrepr_init (head tail : Ptr) (m0 : QMem)
    (hh : qvalid head = true) (ht : qvalid tail = true) :
    ∃ m, _cds_wfcq_init head tail m0 = .ok m ∧ QRepr m head tail [] := by
  refine ⟨_, by simp [_cds_wfcq_init, _cds_wfcq_node_init, qstore_next, qstore_p, hh, ht,
    bind, Except.bind]; rfl, ?_⟩
  rw [qrepr_nil_iff]
  simp [hh, ht]

theorem qrepr_empty (m : QMem) (head tail : Ptr) (l : List Ptr) (h : QRepr m head tail l) :
    _cds_wfcq_empty head tail m = .ok l.isEmpty := by
  obtain ⟨hh, ht, hv, hnd, hc, hn⟩ := h
  rw [wfcq_empty_eq head tail m hh ht]
  cases l with
  | nil =>
    simp [QChain] at hc
    rw [← hc] at hn
    rw [← hc]
    simp [hn]
  | cons a l =>
    have ha : m.next head ≠ NULL := by
      rw [hc.1]
      exact qvalid_ne_null (hv a (List.mem_cons_self _ _))
    simp [ha]

theorem qrepr_enqueue (m : QMem) (head tail node : Ptr) (l : List Ptr)
    (h : QRepr m head tail l) (hv : qvalid node = true) (hfresh : node ∉ head :: l) :
    ∃ m1 m2, _cds_wfcq_node_init node m = .ok m1 ∧
      _cds_wfcq_enqueue head tail node m1 = .ok m2 ∧ QRepr m2 head tail (l ++ [node]) := by
  obtain ⟨hh, ht, hvl, hnd, hc, hn⟩ := h
  have hlast : m.p tail ∈ head :: l := qchain_last_mem m l head _ hc
  have hpv : qvalid (m.p tail) = true := by
    rcases List.mem_cons.mp hlast with e | e
    · rw [e]; exact hh
    · exact hvl _ e
  have hne : node ≠ m.p tail := fun e => hfresh (e ▸ hlast)
  refine ⟨_, _, by simp [_cds_wfcq_node_init, qstore_next, hv]; rfl,
    by simp [_cds_wfcq_enqueue, ___cds_wfcq_append, quatomic_xchg_p, ht, qstore_next, hpv,
      bind, Except.bind]; rfl, ?_⟩
  refine ⟨hh, ht, ?_, ?_, ?_, ?_⟩
  · intro n hn'
    rcases List.mem_append.mp hn' with e | e
    · exact hvl n e
    · simp at e
      rw [e]; exact hv
  · rw [← List.cons_append]
    refine List.Nodup.append hnd (by simp) ?_
    intro x hx hx'
    simp at hx'
    rw [hx'] at hx
    exact hfresh hx
  · simp only [if_true]
    refine qchain_append _ l head (m.p tail) [node] node ?_ ?_
    · refine qchain_congr m _ l head (m.p tail) hc hnd ?_
      intro x hx hxl
      have hxn : x ≠ node := fun e => hfresh (e ▸ hx)
      simp [hxl, hxn]
    · simp [QChain]
  · simp [hne]

theorem qrepr_dequeue_nil (m : QMem) (head tail : Ptr) (fuel : Nat)
    (h : QRepr m head tail []) :
    ___cds_wfcq_dequeue_blocking head tail fuel m = .ok (NULL, m) := by
  simp [___cds_wfcq_dequeue_blocking, ___cds_wfcq_dequeue, qrepr_empty m head tail [] h,
    bind, Except.bind, pure, Except.pure]

theorem qrepr_dequeue_cons (m : QMem) (head tail a : Ptr) (l : List Ptr) (fuel : Nat)
    (h : QRepr m head tail (a :: l)) (hf : 1 ≤ fuel) :
    ∃ m', ___cds_wfcq_dequeue_blocking head tail fuel m = .ok (a, m') ∧
      QRepr m' head tail l := by
  have hem := qrepr_empty m head tail (a :: l) h
  obtain ⟨hh, ht, hvl, hnd, hc, hn⟩ := h
  have hav : qvalid a = true := hvl a (List.mem_cons_self _ _)
  have ha0 : a ≠ NULL := qvalid_ne_null hav
  have hha : m.next head = a := hc.1
  have hsync : ___cds_wfcq_node_sync_next head true fuel m = .ok a := by
    rw [wfcq_sync_next_value head true fuel m hh (by rw [hha]; exact ha0) hf, hha]
  have hnd' : (a :: l).Nodup := (List.nodup_cons.mp hnd).2
  have hhead : head ∉ a :: l := (List.nodup_cons.mp hnd).1
  cases l with
  | nil =>
    have hpa : m.p tail = a := by
      have := hc.2
      simp [QChain] at this
      exact this.symm
    have hna : m.next a = NULL := by rw [← hpa]; exact hn
    refine ⟨_, by simp [___cds_wfcq_dequeue_blocking, ___cds_wfcq_dequeue, hem, hsync,
      qload_next, hav, hna, _cds_wfcq_node_init, qstore_next, hh, quatomic_cmpxchg_p, ht, hpa,
      bind, Except.bind, pure, Except.pure]; rfl, ?_⟩
    rw [qrepr_nil_iff]
    simp [hh, ht]
  | cons b l =>
    have hbv : qvalid b = true := hvl b (by simp)
    have hb0 : b ≠ NULL := qvalid_ne_null hbv
    have hab : m.next a = b := hc.2.1
    have hlast : m.p tail ∈ b :: l := qchain_last_mem m l b _ hc.2.2
    have hph : m.p tail ≠ head := by
      intro e
      rw [e] at hlast
      exact hhead (List.mem_cons_of_mem _ hlast)
    refine ⟨_, by simp [___cds_wfcq_dequeue_blocking, ___cds_wfcq_dequeue, hem, hsync,
      qload_next, hav, hab, hb0, qstore_next, hh, bind, Except.bind, pure, Except.pure]; rfl, ?_⟩
    refine ⟨hh, ht, fun n hn' => hvl n (List.mem_cons_of_mem _ hn'), ?_, ?_, ?_⟩
    · have h1 : head ∉ b :: l := fun e => hhead (List.mem_cons_of_mem _ e)
      exact List.nodup_cons.mpr ⟨h1, (List.nodup_cons.mp hnd').2⟩
    · refine ⟨by simp, ?_⟩
      refine qchain_congr m _ l b (m.p tail) hc.2.2 (List.nodup_cons.mp hnd').2 ?_
      intro x hx _
      have hxh : x ≠ head := fun e => hhead (List.mem_cons_of_mem _ (e ▸ hx))
      simp [hxh]
    · simp [hph]
      exact hn

theorem qrun_fifo (head tail : Ptr) (fuel : Nat) (hf : 1 ≤ fuel) :
    ∀ (ops : List QOp) (m : QMem) (l : List Ptr), QRepr m head tail l →
      (∀ n ∈ qenqueued ops, qvalid n = true) → (head :: (l ++ qenqueued ops)).Nodup →
      ∃ m', qrun head tail fuel ops m = .ok ((fifo ops l).1, m') ∧
        QRepr m' head tail (fifo ops l).2 := by
  intro ops
  induction ops with
  | nil =>
    intro m l h _ _
    exact ⟨m, rfl, h⟩
  | cons op ops ih =>
    intro m l h hv hnd
    cases op with
    | enqueue node =>
      have hnv : qvalid node = true := hv node (by simp [qenqueued])
      have hfresh : node ∉ head :: l := by
        intro hmem
        simp only [qenqueued, List.nodup_cons, List.mem_append, List.mem_cons,
          List.nodup_append] at hnd
        rcases List.mem_cons.mp hmem with e | e
        · exact hnd.1 (Or.inr (Or.inl e.symm))
        · exact hnd.2.2.2 e (List.mem_cons_self _ _)
      obtain ⟨m1, m2, e1, e2, hr⟩ := qrepr_enqueue m head tail node l h hnv hfresh
      have hnd2 : (head :: ((l ++ [node]) ++ qenqueued ops)).Nodup := by
        simpa [qenqueued] using hnd
      obtain ⟨m', e3, hr'⟩ := ih m2 (l ++ [node]) hr
        (fun n hn => hv n (by simp [qenqueued, hn])) hnd2
      exact ⟨m', by simp [qrun, e1, e2, e3, fifo, bind, Except.bind], by simpa [fifo] using hr'⟩
    | dequeue =>
      have hv' : ∀ n ∈ qenqueued ops, qvalid n = true := fun n hn => hv n (by simpa [qenqueued] using hn)
      cases l with
      | nil =>
        have e1 := qrepr_dequeue_nil m head tail fuel h
        obtain ⟨m', e3, hr'⟩ := ih m [] h hv' (by simpa [qenqueued] using hnd)
        exact ⟨m', by simp [qrun, e1, e3, fifo, bind, Except.bind, pure, Except.pure],
          by simpa [fifo] using hr'⟩
      | cons a l =>
        obtain ⟨m1, e1, hr⟩ := qrepr_dequeue_cons m head tail a l fuel h hf
        have hnd2 : (head :: (l ++ qenqueued ops)).Nodup := by
          simp only [qenqueued, List.cons_append, List.nodup_cons, List.mem_cons, not_or] at hnd
          exact List.nodup_cons.mpr ⟨hnd.1.2, hnd.2.2⟩
        obtain ⟨m', e3, hr'⟩ := ih m1 l hr hv' hnd2
        exact ⟨m', by simp [qrun, e1, e3, fifo, bind, Except.bind, pure, Except.pure],
          by simpa [fifo] using hr'⟩

/-- C1: on a queue initialised by `_cds_wfcq_init`, any sequence of completed
enqueues (of pairwise distinct nodes, each initialised by `_cds_wfcq_node_init`)
and blocking dequeues runs without fault, every dequeue returns what the
reference FIFO returns (the oldest node enqueued and not yet dequeued, or null
when there is none), and `_cds_wfcq_empty` afterwards tells whether the
reference FIFO is empty. -/
theorem wfcq_fifo_order (head tail : Ptr) (m0 : QMem) (ops : List QOp) (fuel : Nat)
    (hh : qvalid head = true) (ht : qvalid tail = true)
    (hv : ∀ n ∈ qenqueued ops, qvalid n = true)
    (hnd : (head :: qenqueued ops).Nodup) (hf : 1 ≤ fuel) :
    ∃ m m', _cds_wfcq_init head tail m0 = .ok m ∧
      qrun head tail fuel ops m = .ok ((fifo ops []).1, m') ∧
      _cds_wfcq_empty head tail m' = .ok (fifo ops []).2.isEmpty := by
  obtain ⟨m, e1, hr⟩ := qrepr_init head tail m0 hh ht
  obtain ⟨m', e2, hr'⟩ := qrun_fifo head tail fuel hf ops m [] hr hv (by simpa using hnd)
  exact ⟨m, m', e1, e2, qrepr_empty m' head tail _ hr'⟩

/-- Witness of C1: enqueue 10, 20, 30 on the queue (1, 2), then dequeue four
times: 10, 20, 30, null, and the queue is empty. -/
theorem wfcq_fifo_order_witness :
    ∃ m m', _cds_wfcq_init 1 2 ⟨fun _ => 7, fun _ => 7⟩ = .ok m ∧
      qrun 1 2 1 [.enqueue 10, .enqueue 20, .enqueue 30, .dequeue, .dequeue, .dequeue,
        .dequeue] m = .ok ([10, 20, 30, NULL], m') ∧
      _cds_wfcq_empty 1 2 m' = .ok true :=
  wfcq_fifo_order 1 2 ⟨fun _ => 7, fun _ => 7⟩
    [.enqueue 10, .enqueue 20, .enqueue 30, .dequeue, .dequeue, .dequeue, .dequeue] 1
    (by decide) (by decide) (by decide) (by decide) (by decide)

/-! ## Queue: splice -/

theorem fifo_drain : ∀ (l : List Ptr),
    fifo (List.replicate (l.length + 1) QOp.dequeue) l = (l ++ [NULL], []) := by
  intro l
  induction l with
  | nil => rfl
  | cons a l ih =>
    simp only [List.length_cons, List.replicate_succ, fifo] at ih ⊢
    simp [ih]

theorem qenqueued_replicate_dequeue : ∀ (k : Nat),
    qenqueued (List.replicate k QOp.dequeue) = [] := by
  intro k
  induction k with
  | zero => rfl
  | succ k ih => simpa [List.replicate_succ, qenqueued] using ih

theorem qrun_drain (head tail : Ptr) (fuel : Nat) (hf : 1 ≤ fuel) (m : QMem) (l : List Ptr)
    (h : QRepr m head tail l) :
    ∃ m', qrun head tail fuel (List.replicate (l.length + 1) QOp.dequeue) m
      = .ok (l ++ [NULL], m') := by
  obtain ⟨m', e, _⟩ := qrun_fifo head tail fuel hf (List.replicate (l.length + 1) QOp.dequeue)
    m l h (by simp [qenqueued_replicate_dequeue])
    (by simpa [qenqueued_replicate_dequeue] using h.2.2.2.1)
  rw [fifo_drain] at e
  exact ⟨m', e⟩

theorem qrepr_splice (m : QMem) (dh dt sh st : Ptr) (ld ls : List Ptr) (fuel : Nat)
    (hd : QRepr m dh dt ld) (hs : QRepr m sh st ls) (hne : ls ≠ [])
    (hnd : (dh :: sh :: (ld ++ ls)).Nodup) (htt : dt ≠ st) (hf : 1 ≤ fuel) :
    ∃ m', ___cds_wfcq_splice dh dt sh st true fuel m = .ok (0, m') ∧
      QRepr m' sh st [] ∧ QRepr m' dh dt (ld ++ ls) := by
  have hem := qrepr_empty m sh st ls hs
  obtain ⟨hdh, hdt, hdv, hdnd, hdc, hdn⟩ := hd
  obtain ⟨hsh, hst, hsv, hsnd, hsc, hsn⟩ := hs
  cases ls with
  | nil => exact absurd rfl hne
  | cons H ls =>
    have hHv : qvalid H = true := hsv H (List.mem_cons_self _ _)
    have hshH : m.next sh = H := hsc.1
    have hsync : ___cds_wfcq_node_sync_next sh true fuel m = .ok H := by
      rw [wfcq_sync_next_value sh true fuel m hsh (by rw [hshH]; exact qvalid_ne_null hHv) hf,
        hshH]
    have hHw : H ≠ CDS_WFCQ_WOULDBLOCK := qvalid_ne_wouldblock hHv
    have hD : m.p dt ∈ dh :: ld := qchain_last_mem m ld dh _ hdc
    have hT : m.p st ∈ H :: ls := qchain_last_mem m ls H _ hsc.2
    have hDv : qvalid (m.p dt) = true := by
      rcases List.mem_cons.mp hD with e | e
      · rw [e]; exact hdh
      · exact hdv _ e
    simp only [List.nodup_cons, List.mem_cons, List.mem_append, not_or, List.nodup_append]
      at hnd
    obtain ⟨⟨hdhsh, hdhld, hdhH, hdhls⟩, ⟨hshld, hshH', hshls⟩, hldnd, ⟨hHls, hlsnd⟩, hdisj⟩ := hnd
    have hshD : sh ≠ m.p dt := by
      intro e
      rcases List.mem_cons.mp hD with e' | e'
      · exact hdhsh (e.trans e').symm
      · exact hshld (e ▸ e')
    have hTD : m.p st ≠ m.p dt := by
      intro e
      rw [e] at hT
      rcases List.mem_cons.mp hD with e' | e'
      · rw [e'] at hT
        rcases List.mem_cons.mp hT with e2 | e2
        · exact hdhH e2
        · exact hdhls e2
      · exact hdisj e' hT
    have hTsh : m.p st ≠ sh := by
      intro e
      rw [e] at hT
      rcases List.mem_cons.mp hT with e2 | e2
      · exact hshH' e2
      · exact hshls e2
    refine ⟨_, by simp [___cds_wfcq_splice, hem, hsync, hHw, _cds_wfcq_node_init, qstore_next,
      hsh, quatomic_xchg_p, hst, ___cds_wfcq_append, hdt, htt, hDv, bind, Except.bind, pure,
      Except.pure]; rfl, ?_, ?_⟩
    · rw [qrepr_nil_iff]
      simp [hsh, hst, htt.symm, hshD]
    · refine ⟨hdh, hdt, ?_, ?_, ?_, ?_⟩
      · intro n hn
        rcases List.mem_append.mp hn with e | e
        · exact hdv n e
        · exact hsv n e
      · simp only [List.nodup_cons, List.mem_cons, List.mem_append, not_or, List.nodup_append]
        exact ⟨⟨hdhld, hdhH, hdhls⟩, hldnd, ⟨hHls, hlsnd⟩, hdisj⟩
      · simp only [if_true]
        refine qchain_append _ ld dh (m.p dt) (H :: ls) (m.p st) ?_ ⟨by simp, ?_⟩
        · refine qchain_congr m _ ld dh (m.p dt) hdc hdnd ?_
          intro x hx hxD
          have hxsh : x ≠ sh := by
            intro e
            rw [e] at hx
            rcases List.mem_cons.mp hx with e' | e'
            · exact hdhsh e'.symm
            · exact hshld e'
          simp [hxD, hxsh]
        · refine qchain_congr m _ ls H (m.p st) hsc.2 (List.nodup_cons.mpr ⟨hHls, hlsnd⟩) ?_
          intro x hx _
          have hxsh : x ≠ sh := by
            intro e
            rw [e] at hx
            rcases List.mem_cons.mp hx with e' | e'
            · exact hshH' e'
            · exact hshls e'
          have hxD : x ≠ m.p dt := by
            intro e
            rw [e] at hx
            rcases List.mem_cons.mp hD with e' | e'
            · rw [e'] at hx
              rcases List.mem_cons.mp hx with e2 | e2
              · exact hdhH e2
              · exact hdhls e2
            · exact hdisj e' hx
          simp [hxD, hxsh]
      · simp [hTD, hTsh]
        exact hsn

/-- C2: for distinct quiescent queues `dest` with contents `ld` and `src` with
contents `ls`, `ls` not empty, `___cds_wfcq_splice_blocking(dest, src)` returns,
leaves `src` empty (`_cds_wfcq_empty` is true, `tail->p` is `src`'s sentinel whose
`next` is null), and successive blocking dequeues on `dest` return the nodes of
`ld`, then those of `ls`, then null. -/
theorem wfcq_splice_appends (m : QMem) (dh dt sh st : Ptr) (ld ls : List Ptr) (fuel : Nat)
    (hd : QRepr m dh dt ld) (hs : QRepr m sh st ls) (hne : ls ≠ [])
    (hnd : (dh :: sh :: (ld ++ ls)).Nodup) (htt : dt ≠ st) (hf : 1 ≤ fuel) :
    ∃ m', ___cds_wfcq_splice_blocking dh dt sh st fuel m = .ok m' ∧
      _cds_wfcq_empty sh st m' = .ok true ∧ m'.p st = sh ∧ m'.next sh = NULL ∧
      ∃ m'', qrun dh dt fuel (List.replicate ((ld ++ ls).length + 1) QOp.dequeue) m'
        = .ok (ld ++ ls ++ [NULL], m'') := by
  obtain ⟨m', e, hs', hd'⟩ := qrepr_splice m dh dt sh st ld ls fuel hd hs hne hnd htt hf
  have h0 := (qrepr_nil_iff m' sh st).mp hs'
  refine ⟨m', by simp [___cds_wfcq_splice_blocking, e, bind, Except.bind, pure, Except.pure],
    qrepr_empty m' sh st [] hs', h0.2.2.1, h0.2.2.2, ?_⟩
  exact qrun_drain dh dt fuel hf m' (ld ++ ls) hd'

/-- Witness of C2: `src` (3, 4) holds 10, 20, 30 and `dest` (1, 2) holds 40, 50;
after the splice `dest` drains as 40, 50, 10, 20, 30, null. -/
theorem wfcq_splice_appends_witness :
    ∃ m', ___cds_wfcq_splice_blocking 1 2 3 4 1 qmem_two_queues = .ok m' ∧
      _cds_wfcq_empty 3 4 m' = .ok true ∧ m'.p 4 = 3 ∧ m'.next 3 = NULL ∧
      ∃ m'', qrun 1 2 1 (List.replicate 6 QOp.dequeue) m'
        = .ok ([40, 50, 10, 20, 30, NULL], m'') :=
  wfcq_splice_appends qmem_two_queues 1 2 3 4 [40, 50] [10, 20, 30] 1
    (by decide) (by decide) (by decide) (by decide) (by decide) (by decide)

/-! ## Stack: quiescent states, LIFO order and drain order -/

theorem schain_congr (m m' : SMem) :
    ∀ (l : List Ptr) (top : Ptr), SChain m top l → (∀ x ∈ l, m'.next x = m.next x) →
      SChain m' top l := by
  intro l
  induction l with
  | nil =>
    intro top h _
    exact h
  | cons a l ih =>
    intro top h hfr
    refine ⟨h.1, ?_⟩
    rw [hfr a (List.mem_cons_self _ _)]
    exact ih _ h.2 (fun x hx => hfr x (List.mem_cons_of_mem _ hx))

theorem schain_top_ne_null (m : SMem) (top : Ptr) (l : List Ptr)
    (hv : ∀ n ∈ l, svalid n = true) (h : SChain m top l) : top ≠ NULL := by
  cases l with
  | nil =>
    simp [SChain] at h
    rw [h]
    decide
  | cons a l =>
    rw [h.1]
    exact svalid_ne_null (hv a (List.mem_cons_self _ _))

theorem srepr_init (s : Ptr) (m0 : SMem) (hs : svalid s = true) :
    ∃ m, _cds_wfs_init s m0 = .ok m ∧ SRepr m s [] := by
  refine ⟨_, by simp [_cds_wfs_init, sstore_head, hs]; rfl, hs, by simp, by simp, ?_⟩
  simp [SChain]

theorem srepr_empty (m : SMem) (s : Ptr) (l : List Ptr) (h : SRepr m s l) :
    _cds_wfs_empty s m = .ok l.isEmpty := by
  obtain ⟨hs, hv, _, hc⟩ := h
  cases l with
  | nil =>
    simp [SChain] at hc
    simp [_cds_wfs_empty, sload_head, hs, ___cds_wfs_end, hc, bind, Except.bind, pure,
      Except.pure]
  | cons a l =>
    have ha : m.head s ≠ CDS_WFS_END := by
      rw [hc.1]
      exact svalid_ne_end (hv a (List.mem_cons_self _ _))
    simp [_cds_wfs_empty, sload_head, hs, ___cds_wfs_end, ha, bind, Except.bind, pure,
      Except.pure]

theorem srepr_push (m : SMem) (s node : Ptr) (l : List Ptr)
    (h : SRepr m s l) (hv : svalid node = true) (hfresh : node ∉ l) :
    ∃ m1 r m2, _cds_wfs_node_init node m = .ok m1 ∧
      _cds_wfs_push s node m1 = .ok (r, m2) ∧ SRepr m2 s (node :: l) := by
  obtain ⟨hs, hvl, hnd, hc⟩ := h
  refine ⟨_, _, _, by simp [_cds_wfs_node_init, sstore_next, hv]; rfl,
    by simp [_cds_wfs_push, sload_next, hv, suatomic_xchg_head, hs, sstore_next,
      bind, Except.bind, pure, Except.pure]; exact ⟨rfl, rfl⟩, ?_⟩
  refine ⟨hs, ?_, List.nodup_cons.mpr ⟨hfresh, hnd⟩, ?_⟩
  · intro n hn
    rcases List.mem_cons.mp hn with e | e
    · rw [e]; exact hv
    · exact hvl n e
  · refine ⟨by simp, ?_⟩
    simp only [if_true]
    refine schain_congr m _ l _ hc ?_
    intro x hx
    have hxn : x ≠ node := fun e => hfresh (e ▸ hx)
    simp [hxn]

theorem wfs_pop_end (s : Ptr) (fuel : Nat) (m : SMem) (hs : svalid s = true)
    (hf : 1 ≤ fuel) (h : m.head s = CDS_WFS_END) :
    ___cds_wfs_pop_blocking s fuel m = .ok (NULL, m) := by
  obtain ⟨k, rfl⟩ : ∃ k, fuel = k + 1 := ⟨fuel - 1, by omega⟩
  simp [___cds_wfs_pop_blocking, wfs_pop_loop, sload_head, hs, ___cds_wfs_end, h,
    bind, Except.bind, pure, Except.pure]

theorem wfs_pop_node (s : Ptr) (fuel : Nat) (m : SMem) (hs : svalid s = true)
    (hf : 1 ≤ fuel) (hv : svalid (m.head s) = true) (hn : m.next (m.head s) ≠ NULL) :
    ___cds_wfs_pop_blocking s fuel m = .ok (m.head s,
      { m with head := fun a => if a = s then m.next (m.head s) else m.head a }) := by
  have hsync := wfs_sync_next_value (m.head s) fuel m hv hn hf
  obtain ⟨k, rfl⟩ : ∃ k, fuel = k + 1 := ⟨fuel - 1, by omega⟩
  simp [___cds_wfs_pop_blocking, wfs_pop_loop, sload_head, hs, ___cds_wfs_end,
    svalid_ne_end hv, hsync, suatomic_cmpxchg_head, bind, Except.bind, pure, Except.pure]

theorem srepr_pop_nil (m : SMem) (s : Ptr) (fuel : Nat) (hf : 1 ≤ fuel)
    (h : SRepr m s []) : ___cds_wfs_pop_blocking s fuel m = .ok (NULL, m) := by
  obtain ⟨hs, _, _, hc⟩ := h
  simp [SChain] at hc
  exact wfs_pop_end s fuel m hs hf hc

theorem srepr_pop_cons (m : SMem) (s a : Ptr) (l : List Ptr) (fuel : Nat) (hf : 1 ≤ fuel)
    (h : SRepr m s (a :: l)) :
    ∃ m', ___cds_wfs_pop_blocking s fuel m = .ok (a, m') ∧ SRepr m' s l := by
  obtain ⟨hs, hvl, hnd, hc⟩ := h
  have hha : m.head s = a := hc.1
  have hav : svalid a = true := hvl a (List.mem_cons_self _ _)
  have hvl' : ∀ n ∈ l, svalid n = true := fun n hn => hvl n (List.mem_cons_of_mem _ hn)
  have hn : m.next (m.head s) ≠ NULL := by
    rw [hha]
    exact schain_top_ne_null m _ l hvl' hc.2
  have e := wfs_pop_node s fuel m hs hf (by rw [hha]; exact hav) hn
  rw [hha] at e
  refine ⟨_, e, hs, hvl', (List.nodup_cons.mp hnd).2, ?_⟩
  simp only [if_true]
  exact schain_congr m _ l _ hc.2 (fun _ _ => rfl)

theorem srun_lifo (s : Ptr) (fuel : Nat) (hf : 1 ≤ fuel) :
    ∀ (ops : List SOp) (m : SMem) (l : List Ptr), SRepr m s l →
      (∀ n ∈ spushed ops, svalid n = true) → (l ++ spushed ops).Nodup →
      ∃ m', srun s fuel ops m = .ok ((lifo ops l).1, m') ∧ SRepr m' s (lifo ops l).2 := by
  intro ops
  induction ops with
  | nil =>
    intro m l h _ _
    exact ⟨m, rfl, h⟩
  | cons op ops ih =>
    intro m l h hv hnd
    cases op with
    | push node =>
      have hnv : svalid node = true := hv node (by simp [spushed])
      have hfresh : node ∉ l := by
        intro hmem
        simp only [spushed, List.nodup_append, List.nodup_cons] at hnd
        exact hnd.2.2 hmem (List.mem_cons_self _ _)
      obtain ⟨m1, r, m2, e1, e2, hr⟩ := srepr_push m s node l h hnv hfresh
      have hnd2 : ((node :: l) ++ spushed ops).Nodup := by
        have := List.perm_middle.nodup_iff.mp (by simpa [spushed] using hnd)
        simpa using this
      obtain ⟨m', e3, hr'⟩ := ih m2 (node :: l) hr
        (fun n hn => hv n (by simp [spushed, hn])) hnd2
      exact ⟨m', by simp [srun, e1, e2, e3, lifo, bind, Except.bind], by simpa [lifo] using hr'⟩
    | pop =>
      have hv' : ∀ n ∈ spushed ops, svalid n = true :=
        fun n hn => hv n (by simpa [spushed] using hn)
      cases l with
      | nil =>
        have e1 := srepr_pop_nil m s fuel hf h
        obtain ⟨m', e3, hr'⟩ := ih m [] h hv' (by simpa [spushed] using hnd)
        exact ⟨m', by simp [srun, e1, e3, lifo, bind, Except.bind, pure, Except.pure],
          by simpa [lifo] using hr'⟩
      | cons a l =>
        obtain ⟨m1, e1, hr⟩ := srepr_pop_cons m s a l fuel hf h
        have hnd2 : (l ++ spushed ops).Nodup := by
          simp only [spushed, List.cons_append, List.nodup_cons] at hnd
          exact hnd.2
        obtain ⟨m', e3, hr'⟩ := ih m1 l hr hv' hnd2
        exact ⟨m', by simp [srun, e1, e3, lifo, bind, Except.bind, pure, Except.pure],
          by simpa [lifo] using hr'⟩

/-- C4: on a stack initialised by `_cds_wfs_init`, any sequence of completed pushes
(of pairwise distinct nodes, each initialised by `_cds_wfs_node_init`) and pops
runs without fault, every pop returns what the reference LIFO returns (the most
recently pushed node not yet popped, or null when there is none), and
`_cds_wfs_empty` afterwards tells whether the reference LIFO is empty.  In any
state, a pop with the top at `CDS_WFS_END` returns null and leaves memory
unchanged, and a pop with a node on top whose `next` is set returns that node
(not null) and makes its `next` the new top, changing nothing else. -/
theorem wfs_pop_lifo_order (s : Ptr) (m0 : SMem) (ops : List SOp) (fuel : Nat)
    (hs : svalid s = true) (hv : ∀ n ∈ spushed ops, svalid n = true)
    (hnd : (spushed ops).Nodup) (hf : 1 ≤ fuel) :
    (∃ m m', _cds_wfs_init s m0 = .ok m ∧
      srun s fuel ops m = .ok ((lifo ops []).1, m') ∧
      _cds_wfs_empty s m' = .ok (lifo ops []).2.isEmpty) ∧
    (∀ m : SMem, m.head s = CDS_WFS_END →
      ___cds_wfs_pop_blocking s fuel m = .ok (NULL, m)) ∧
    (∀ m : SMem, svalid (m.head s) = true → m.next (m.head s) ≠ NULL →
      ∃ m', ___cds_wfs_pop_blocking s fuel m = .ok (m.head s, m') ∧ m.head s ≠ NULL ∧
        m'.head s = m.next (m.head s) ∧ m'.next = m.next ∧
        ∀ s', s' ≠ s → m'.head s' = m.head s') := by
  refine ⟨?_, fun m h => wfs_pop_end s fuel m hs hf h, fun m h1 h2 => ?_⟩
  · obtain ⟨m, e1, hr⟩ := srepr_init s m0 hs
    obtain ⟨m', e2, hr'⟩ := srun_lifo s fuel hf ops m [] hr hv (by simpa using hnd)
    exact ⟨m, m', e1, e2, srepr_empty m' s _ hr'⟩
  · exact ⟨_, wfs_pop_node s fuel m hs hf h1 h2, svalid_ne_null h1, by simp, rfl,
      fun s' hs' => by simp [hs']⟩

/-- Witness of C4: on the stack at address 3, push 10, push 20, pop, push 30, then
pop three times: 20, 30, 10, null, and the stack is empty. -/
theorem wfs_pop_lifo_order_witness :
    ∃ m m', _cds_wfs_init 3 ⟨fun _ => 7, fun _ => 7⟩ = .ok m ∧
      srun 3 1 [.push 10, .push 20, .pop, .push 30, .pop, .pop, .pop] m
        = .ok ([20, 30, 10, NULL], m') ∧
      _cds_wfs_empty 3 m' = .ok true :=
  (wfs_pop_lifo_order 3 ⟨fun _ => 7, fun _ => 7⟩
    [.push 10, .push 20, .pop, .push 30, .pop, .pop, .pop] 1
    (by decide) (by decide) (by decide) (by decide)).1

theorem srepr_push_all (s : Ptr) :
    ∀ (nodes : List Ptr) (m : SMem) (l : List Ptr), SRepr m s l →
      (∀ n ∈ nodes, svalid n = true) → (l ++ nodes).Nodup →
      ∃ m', wfs_push_all s nodes m = .ok m' ∧ SRepr m' s (nodes.reverse ++ l) := by
  intro nodes
  induction nodes with
  | nil =>
    intro m l h _ _
    exact ⟨m, rfl, by simpa using h⟩
  | cons node nodes ih =>
    intro m l h hv hnd
    have hfresh : node ∉ l := by
      intro hmem
      simp only [List.nodup_append, List.nodup_cons] at hnd
      exact hnd.2.2 hmem (List.mem_cons_self _ _)
    obtain ⟨m1, r, m2, e1, e2, hr⟩ :=
      srepr_push m s node l h (hv node (List.mem_cons_self _ _)) hfresh
    have hnd2 : ((node :: l) ++ nodes).Nodup := by
      have := List.perm_middle.nodup_iff.mp hnd
      simpa using this
    obtain ⟨m', e3, hr'⟩ := ih m2 (node :: l) hr
      (fun n hn => hv n (List.mem_cons_of_mem _ hn)) hnd2
    exact ⟨m', by simp [wfs_push_all, e1, e2, e3, bind, Except.bind],
      by simpa using hr'⟩

theorem wfs_for_each_chain (fuel : Nat) (hf : 1 ≤ fuel) (m : SMem) :
    ∀ (l : List Ptr) (top : Ptr) (steps : Nat), (∀ n ∈ l, svalid n = true) →
      SChain m top l → l.length + 1 ≤ steps →
      wfs_for_each_from fuel steps (_cds_wfs_first_blocking top) m = .ok (l, m) := by
  intro l
  induction l with
  | nil =>
    intro top steps _ hc hsteps
    obtain ⟨k, rfl⟩ : ∃ k, steps = k + 1 := ⟨steps - 1, by simp at hsteps; omega⟩
    simp [SChain] at hc
    simp [wfs_for_each_from, _cds_wfs_first_blocking, ___cds_wfs_end, hc, pure, Except.pure]
  | cons a l ih =>
    intro top steps hv hc hsteps
    obtain ⟨k, rfl⟩ : ∃ k, steps = k + 1 := ⟨steps - 1, by simp at hsteps; omega⟩
    have hav : svalid a = true := hv a (List.mem_cons_self _ _)
    have hvl : ∀ n ∈ l, svalid n = true := fun n hn => hv n (List.mem_cons_of_mem _ hn)
    have hn : m.next a ≠ NULL := schain_top_ne_null m _ l hvl hc.2
    have hrec := ih (m.next a) k hvl hc.2 (by simp at hsteps; omega)
    have hnext : _cds_wfs_next_blocking a fuel m
        = .ok (_cds_wfs_first_blocking (m.next a), m) := by
      by_cases he : m.next a = CDS_WFS_END <;>
        simp [_cds_wfs_next_blocking, wfs_sync_next_value a fuel m hav hn hf,
          _cds_wfs_first_blocking, ___cds_wfs_end, he, bind, Except.bind, pure, Except.pure]
    rw [hc.1]
    simp [wfs_for_each_from, _cds_wfs_first_blocking, ___cds_wfs_end, svalid_ne_end hav,
      svalid_ne_null hav, hnext, bind, Except.bind, pure, Except.pure]
    simp [_cds_wfs_first_blocking, ___cds_wfs_end] at hrec
    simp [hrec]

/-- C3: after `_cds_wfs_init` and pushes of the pairwise distinct nodes `ns` in list
order (each initialised by `_cds_wfs_node_init`), `___cds_wfs_pop_all` returns null
when `ns` is empty and the last node pushed otherwise; traversing what it returns
with `_cds_wfs_first_blocking` and `_cds_wfs_next_blocking` visits the nodes in
reverse push order and then gets null; the stack is empty after the pop_all. -/
theorem wfs_pop_all_reverse_order (s : Ptr) (m0 : SMem) (ns : List Ptr) (fuel steps : Nat)
    (hs : svalid s = true) (hv : ∀ n ∈ ns, svalid n = true) (hnd : ns.Nodup)
    (hf : 1 ≤ fuel) (hsteps : ns.length + 1 ≤ steps) :
    ∃ m m1 m2, _cds_wfs_init s m0 = .ok m ∧ wfs_push_all s ns m = .ok m1 ∧
      ___cds_wfs_pop_all s m1 = .ok (ns.reverse.headD NULL, m2) ∧
      wfs_for_each (ns.reverse.headD NULL) fuel steps m2 = .ok (ns.reverse, m2) ∧
      _cds_wfs_empty s m2 = .ok true := by
  obtain ⟨m, e1, hr⟩ := srepr_init s m0 hs
  obtain ⟨m1, e2, hr1⟩ := srepr_push_all s ns m [] hr hv (by simpa using hnd)
  simp only [List.append_nil] at hr1
  obtain ⟨_, hvl, _, hc⟩ := hr1
  have hpop : ___cds_wfs_pop_all s m1 = .ok (ns.reverse.headD NULL,
      { m1 with head := fun a => if a = s then CDS_WFS_END else m1.head a }) := by
    cases hl : ns.reverse with
    | nil =>
      rw [hl] at hc
      simp [SChain] at hc
      simp [___cds_wfs_pop_all, suatomic_xchg_head, hs, ___cds_wfs_end, hc,
        bind, Except.bind, pure, Except.pure]
    | cons a l =>
      rw [hl] at hc
      have ha : m1.head s ≠ CDS_WFS_END := by
        rw [hc.1]
        exact svalid_ne_end (hvl a (by simp [hl]))
      simp [___cds_wfs_pop_all, suatomic_xchg_head, hs, ___cds_wfs_end, ha,
        bind, Except.bind, pure, Except.pure]
      exact hc.1
  refine ⟨m, m1, _, e1, e2, hpop, ?_, ?_⟩
  · have hc2 : SChain { m1 with head := fun a => if a = s then CDS_WFS_END else m1.head a }
        (m1.head s) ns.reverse := schain_congr m1 _ _ _ hc (fun _ _ => rfl)
    have hfirst : _cds_wfs_first_blocking (ns.reverse.headD NULL)
        = _cds_wfs_first_blocking (m1.head s) := by
      cases hl : ns.reverse with
      | nil =>
        rw [hl] at hc
        simp [SChain] at hc
        simp [_cds_wfs_first_blocking, ___cds_wfs_end, hc, NULL, CDS_WFS_END]
      | cons a l =>
        rw [hl] at hc
        simp [hc.1]
    unfold wfs_for_each
    rw [hfirst]
    exact wfs_for_each_chain fuel hf _ ns.reverse (m1.head s) steps hvl hc2 (by simpa using hsteps)
  · simp [_cds_wfs_empty, sload_head, hs, ___cds_wfs_end, bind, Except.bind, pure, Except.pure]

/-- Witness of C3: push 10, 20, 30 on the stack at address 3; pop_all returns 30 and
the traversal visits 30, 20, 10. -/
theorem wfs_pop_all_reverse_order_witness :
    ∃ m m1 m2, _cds_wfs_init 3 ⟨fun _ => 7, fun _ => 7⟩ = .ok m ∧
      wfs_push_all 3 [10, 20, 30] m = .ok m1 ∧
      ___cds_wfs_pop_all 3 m1 = .ok (30, m2) ∧
      wfs_for_each 30 1 4 m2 = .ok ([30, 20, 10], m2) ∧
      _cds_wfs_empty 3 m2 = .ok true :=
  wfs_pop_all_reverse_order 3 ⟨fun _ => 7, fun _ => 7⟩ [10, 20, 30] 1 4
    (by decide) (by decide) (by decide) (by decide) (by decide)

/-! ## Adaptive backoff -/

theorem backoff_events_succ (a j : Nat) :
    (List.range (j + 1)).map (backoff_event a)
      = backoff_event a 0 :: (List.range j).map (backoff_event (a + 1)) := by
  rw [List.range_succ_eq_map, List.map_cons, List.map_map]
  congr 1
  apply List.map_congr_left
  intro k _
  simp only [Function.comp, backoff_event]
  have e : a + (k + 1) + 1 = a + 1 + k + 1 := by omega
  rw [e]

theorem backoff_event_wrap (k : Nat) : backoff_event 10 k = backoff_event 0 k := by
  simp only [backoff_event]
  have e : (10 + k + 1) % 10 = (0 + k + 1) % 10 := by omega
  rw [e]

theorem wfcq_sync_loop_trace (loads : Nat → Ptr) :
    ∀ (j fuel i a : Nat) (tr : List WaitEv), a < 10 →
      (∀ k, k < j → loads (i + k) = NULL) → loads (i + j) ≠ NULL → j < fuel →
      wfcq_sync_loop true loads fuel i a tr
        = (.ok (loads (i + j)), tr ++ (List.range j).map (backoff_event a)) := by
  intro j
  induction j with
  | zero =>
    intro fuel i a tr _ _ hval hf
    obtain ⟨f, rfl⟩ : ∃ f, fuel = f + 1 := ⟨fuel - 1, by omega⟩
    simp only [Nat.add_zero] at hval
    simp [wfcq_sync_loop, hval]
  | succ j ih =>
    intro fuel i a tr ha hnull hval hf
    obtain ⟨f, rfl⟩ : ∃ f, fuel = f + 1 := ⟨fuel - 1, by omega⟩
    have h0 : loads i = NULL := by simpa using hnull 0 (by omega)
    have hnull' : ∀ k, k < j → loads (i + 1 + k) = NULL := by
      intro k hk
      have := hnull (k + 1) (by omega)
      rwa [show i + 1 + k = i + (k + 1) by omega]
    have hval' : loads (i + 1 + j) ≠ NULL := by
      rwa [show i + 1 + j = i + (j + 1) by omega]
    rw [backoff_events_succ]
    by_cases h9 : a + 1 ≥ 10
    · have ha9 : a = 9 := by omega
      subst ha9
      have hrec := ih f (i + 1) 0 (tr ++ [WaitEv.poll 10]) (by omega) hnull' hval' (by omega)
      rw [show i + 1 + j = i + (j + 1) by omega] at hrec
      have hw : (List.range j).map (backoff_event (9 + 1))
          = (List.range j).map (backoff_event 0) :=
        List.map_congr_left (fun k _ => backoff_event_wrap k)
      simp [wfcq_sync_loop, h0, WFCQ_ADAPT_ATTEMPTS, WFCQ_WAIT, hrec, hw, backoff_event]
    · have hrec := ih f (i + 1) (a + 1) (tr ++ [WaitEv.cpu_relax]) (by omega) hnull' hval'
        (by omega)
      rw [show i + 1 + j = i + (j + 1) by omega] at hrec
      have hev : backoff_event a 0 = WaitEv.cpu_relax := by
        have : (a + 0 + 1) % 10 ≠ 0 := by omega
        simp [backoff_event, this]
      have h9' : ¬ (10 ≤ a + 1) := by omega
      simp [wfcq_sync_loop, h0, WFCQ_ADAPT_ATTEMPTS, h9', hrec, hev]

theorem wfcq_sync_loop_timeout (loads : Nat → Ptr) :
    ∀ (fuel i a : Nat) (tr : List WaitEv), a < 10 →
      (∀ k, k < fuel → loads (i + k) = NULL) →
      wfcq_sync_loop true loads fuel i a tr
        = (.error .timeout, tr ++ (List.range fuel).map (backoff_event a)) := by
  intro fuel
  induction fuel with
  | zero =>
    intro i a tr _ _
    simp [wfcq_sync_loop]
  | succ f ih =>
    intro i a tr ha hnull
    have h0 : loads i = NULL := by simpa using hnull 0 (by omega)
    have hnull' : ∀ k, k < f → loads (i + 1 + k) = NULL := by
      intro k hk
      have := hnull (k + 1) (by omega)
      rwa [show i + 1 + k = i + (k + 1) by omega]
    rw [backoff_events_succ]
    by_cases h9 : a + 1 ≥ 10
    · have ha9 : a = 9 := by omega
      subst ha9
      have hrec := ih (i + 1) 0 (tr ++ [WaitEv.poll 10]) (by omega) hnull'
      have hw : (List.range f).map (backoff_event (9 + 1))
          = (List.range f).map (backoff_event 0) :=
        List.map_congr_left (fun k _ => backoff_event_wrap k)
      simp [wfcq_sync_loop, h0, WFCQ_ADAPT_ATTEMPTS, WFCQ_WAIT, hrec, hw, backoff_event]
    · have hrec := ih (i + 1) (a + 1) (tr ++ [WaitEv.cpu_relax]) (by omega) hnull'
      have hev : backoff_event a 0 = WaitEv.cpu_relax := by
        have : (a + 0 + 1) % 10 ≠ 0 := by omega
        simp [backoff_event, this]
      have h9' : ¬ (10 ≤ a + 1) := by omega
      simp [wfcq_sync_loop, h0, WFCQ_ADAPT_ATTEMPTS, h9', hrec, hev]

theorem wfs_sync_loop_eq_wfcq (loads : Nat → Ptr) :
    ∀ (fuel i a : Nat) (tr : List WaitEv),
      wfs_sync_loop loads fuel i a tr = wfcq_sync_loop true loads fuel i a tr := by
  intro fuel
  induction fuel with
  | zero =>
    intro i a tr
    simp [wfs_sync_loop, wfcq_sync_loop]
  | succ f ih =>
    intro i a tr
    simp [wfs_sync_loop, wfcq_sync_loop, ih, CDS_WFS_ADAPT_ATTEMPTS, WFCQ_ADAPT_ATTEMPTS,
      CDS_WFS_WAIT, WFCQ_WAIT]

theorem backoff_events_small (r : Nat) (hr : r < 10) :
    (List.range r).map (backoff_event 0) = List.replicate r WaitEv.cpu_relax := by
  interval_cases r <;> rfl

theorem backoff_events_add_ten (j : Nat) :
    (List.range (10 + j)).map (backoff_event 0)
      = (List.replicate 9 WaitEv.cpu_relax ++ [WaitEv.poll 10])
        ++ (List.range j).map (backoff_event 0) := by
  rw [List.range_add, List.map_append, List.map_map]
  congr 1
  apply List.map_congr_left
  intro k _
  simp only [Function.comp, backoff_event]
  have e : (0 + (10 + k) + 1) % 10 = (0 + k + 1) % 10 := by omega
  rw [e]

theorem backoff_events_cycles (r : Nat) (hr : r < 10) : ∀ (q : Nat),
    (List.range (10 * q + r)).map (backoff_event 0)
      = (List.replicate q (List.replicate 9 WaitEv.cpu_relax ++ [WaitEv.poll 10])).flatten
        ++ List.replicate r WaitEv.cpu_relax := by
  intro q
  induction q with
  | zero => simpa using backoff_events_small r hr
  | succ q ih =>
    rw [show 10 * (q + 1) + r = 10 + (10 * q + r) by omega, backoff_events_add_ten, ih,
      List.replicate_succ (List.replicate 9 WaitEv.cpu_relax ++ [WaitEv.poll 10]) q,
      List.flatten_cons]
    simp only [List.append_assoc]

theorem backoff_events_eq_schedule (j : Nat) :
    (List.range j).map (backoff_event 0) = backoff_schedule j := by
  have h := backoff_events_cycles (j % 10) (Nat.mod_lt _ (by omega)) (j / 10)
  rw [Nat.div_add_mod] at h
  exact h

/-- C20: in blocking mode the wait loops of the queue and of the stack behave alike on
every sequence of loads of `node->next`.  While the first `j` loads give null they
issue `backoff_schedule j`: cycles of nine CPU-relax hints followed by one 10 ms
sleep, then the hints of the cycle under way.  When load `j` is the first
non-null one (and the fuel covers it) they return exactly that value, having
issued one event per null load and none for the non-null load; when all loads
within the fuel are null they are still waiting. -/
theorem wfcq_wfs_adaptive_backoff (loads : Nat → Ptr) (j fuel : Nat)
    (hnull : ∀ k, k < j → loads k = NULL) :
    (loads j ≠ NULL → j < fuel →
      wfcq_sync_loop true loads fuel 0 0 [] = (.ok (loads j), backoff_schedule j) ∧
      wfs_sync_loop loads fuel 0 0 [] = (.ok (loads j), backoff_schedule j)) ∧
    (fuel = j →
      wfcq_sync_loop true loads fuel 0 0 [] = (.error .timeout, backoff_schedule j) ∧
      wfs_sync_loop loads fuel 0 0 [] = (.error .timeout, backoff_schedule j)) := by
  constructor
  · intro hval hf
    have h := wfcq_sync_loop_trace loads j fuel 0 0 [] (by omega)
      (fun k hk => by simpa using hnull k hk) (by simpa using hval) hf
    simp only [Nat.zero_add, List.nil_append, backoff_events_eq_schedule] at h
    exact ⟨h, by rw [wfs_sync_loop_eq_wfcq, h]⟩
  · intro hfj
    subst hfj
    have h := wfcq_sync_loop_timeout loads fuel 0 0 [] (by omega)
      (fun k hk => by simpa using hnull k hk)
    simp only [List.nil_append, backoff_events_eq_schedule] at h
    exact ⟨h, by rw [wfs_sync_loop_eq_wfcq, h]⟩

/-- Witness of C20: 25 null loads, then the value 99: two full cycles and five hints;
and 12 null loads with fuel 12: one full cycle, two hints, still waiting. -/
theorem wfcq_wfs_adaptive_backoff_witness :
    (wfcq_sync_loop true (fun i => if i < 25 then 0 else 99) 30 0 0 []
        = (.ok 99, backoff_schedule 25) ∧
      wfs_sync_loop (fun i => if i < 25 then 0 else 99) 30 0 0 []
        = (.ok 99, backoff_schedule 25)) ∧
    (wfcq_sync_loop true (fun _ => 0) 12 0 0 [] = (.error .timeout, backoff_schedule 12) ∧
      wfs_sync_loop (fun _ => 0) 12 0 0 [] = (.error .timeout, backoff_schedule 12)) :=
  ⟨(wfcq_wfs_adaptive_backoff (fun i => if i < 25 then 0 else 99) 25 30
      (by decide)).1 (by decide) (by decide),
   (wfcq_wfs_adaptive_backoff (fun _ => 0) 12 12 (by decide)).2 rfl⟩

/-! ## Queue: empty source, transient window -/

theorem wfcq_empty_true_iff (head tail : Ptr) (m : QMem) :
    _cds_wfcq_empty head tail m = .ok true ↔
      qvalid head = true ∧ qvalid tail = true ∧ m.next head = NULL ∧ m.p tail = head := by
  constructor
  · intro h
    by_cases hh : qvalid head = true
    · by_cases hn : m.next head = NULL
      · by_cases ht : qvalid tail = true
        · rw [wfcq_empty_eq head tail m hh ht] at h
          simp [hn] at h
          exact ⟨hh, ht, hn, h⟩
        · simp [_cds_wfcq_empty, qload_next, qload_p, hh, ht, hn, bind, Except.bind] at h
      · simp [_cds_wfcq_empty, qload_next, hh, hn, bind, Except.bind, pure, Except.pure] at h
    · simp [_cds_wfcq_empty, qload_next, hh, bind, Except.bind] at h
  · rintro ⟨hh, ht, hn, hp⟩
    rw [wfcq_empty_eq head tail m hh ht]
    simp [hn, hp]

/-- C15: when `_cds_wfcq_empty(src)` is true, splice, blocking (whatever the fuel) or
non-blocking, returns `0` and leaves the whole memory as it is, whatever the
state of `dest`. -/
theorem wfcq_splice_empty_source (dest_q_head dest_q_tail src_q_head src_q_tail : Ptr)
    (m : QMem) (fuel : Nat)
    (he : _cds_wfcq_empty src_q_head src_q_tail m = .ok true) :
    ___cds_wfcq_splice dest_q_head dest_q_tail src_q_head src_q_tail true fuel m
      = .ok (0, m) ∧
    ___cds_wfcq_splice_nonblocking dest_q_head dest_q_tail src_q_head src_q_tail m
      = .ok (0, m) ∧
    ___cds_wfcq_splice_blocking dest_q_head dest_q_tail src_q_head src_q_tail fuel m
      = .ok m := by
  simp [___cds_wfcq_splice_nonblocking, ___cds_wfcq_splice_blocking, ___cds_wfcq_splice, he,
    bind, Except.bind, pure, Except.pure]

/-- Witness of C15: `src` (3, 4) is empty, `dest` (1, 2) is in an arbitrary state. -/
theorem wfcq_splice_empty_source_witness :
    ___cds_wfcq_splice 1 2 3 4 true 0 ⟨fun a => if a = 3 then 0 else 9, fun _ => 3⟩
      = .ok (0, ⟨fun a => if a = 3 then 0 else 9, fun _ => 3⟩) ∧
    ___cds_wfcq_splice_nonblocking 1 2 3 4 ⟨fun a => if a = 3 then 0 else 9, fun _ => 3⟩
      = .ok (0, ⟨fun a => if a = 3 then 0 else 9, fun _ => 3⟩) ∧
    ___cds_wfcq_splice_blocking 1 2 3 4 0 ⟨fun a => if a = 3 then 0 else 9, fun _ => 3⟩
      = .ok ⟨fun a => if a = 3 then 0 else 9, fun _ => 3⟩ :=
  wfcq_splice_empty_source 1 2 3 4 ⟨fun a => if a = 3 then 0 else 9, fun _ => 3⟩ 0 rfl

theorem wfcq_append_steps (head tail new_head new_tail : Ptr) (m : QMem) :
    ___cds_wfcq_append head tail new_head new_tail m
      = (___cds_wfcq_append_xchg tail new_tail m).bind
          (fun r => ___cds_wfcq_append_store r.1 new_head r.2) := by
  simp only [___cds_wfcq_append, ___cds_wfcq_append_xchg, ___cds_wfcq_append_store, bind]

/-- C19 as stated fails: on the queue (1, 2) right after `_cds_wfcq_init`, the first
statement of the enqueue of the initialised node 10 leaves `head->node.next` null
but `tail->p` is node 10, not the sentinel. -/
theorem wfcq_first_enqueue_window_counterexample :
    ∃ m m0 old m1, _cds_wfcq_init 1 2 ⟨fun _ => 7, fun _ => 7⟩ = .ok m ∧
      _cds_wfcq_node_init 10 m = .ok m0 ∧
      ___cds_wfcq_append_xchg 2 10 m0 = .ok (old, m1) ∧
      m1.next 1 = NULL ∧ m1.p 2 = 10 ∧ ¬ (m1.next 1 = NULL ∧ m1.p 2 = 1) :=
  ⟨_, _, _, _, rfl, rfl, rfl, rfl, rfl, by decide⟩

/-- C19 as amended: for every empty queue and initialised node other than the
sentinel, the first statement of the enqueue (the exchange on `tail->p`) returns
the sentinel as old tail and leaves `head->node.next` null and `tail->p` equal to
the new node, which is not the sentinel, so `_cds_wfcq_empty` is false in that
state; the second statement, run from that state, completes the enqueue. -/
theorem wfcq_first_enqueue_window (head tail node : Ptr) (m : QMem)
    (he : _cds_wfcq_empty head tail m = .ok true) (hne : node ≠ head) :
    ∃ m1, ___cds_wfcq_append_xchg tail node m = .ok (head, m1) ∧
      m1.next head = NULL ∧ m1.p tail = node ∧ m1.p tail ≠ head ∧
      _cds_wfcq_empty head tail m1 = .ok false ∧
      ___cds_wfcq_append_store head node m1 = _cds_wfcq_enqueue head tail node m := by
  obtain ⟨hh, ht, hn, hp⟩ := (wfcq_empty_true_iff head tail m).mp he
  refine ⟨{ m with p := fun a => if a = tail then node else m.p a }, ?_, hn, by simp,
    by simpa using hne, ?_, ?_⟩
  · simp [___cds_wfcq_append_xchg, quatomic_xchg_p, ht, hp]
  · rw [wfcq_empty_eq head tail _ hh ht]
    simp [hn, hne]
  · simp [_cds_wfcq_enqueue, ___cds_wfcq_append, ___cds_wfcq_append_store, quatomic_xchg_p, ht,
      hp, bind, Except.bind]

/-- Witness of C19 as amended: the queue (1, 2) with null `head->node.next` and
`tail->p` at the sentinel, and node 10. -/
theorem wfcq_first_enqueue_window_witness :
    ∃ m1, ___cds_wfcq_append_xchg 2 10 ⟨fun _ => 0, fun _ => 1⟩ = .ok (1, m1) ∧
      m1.next 1 = NULL ∧ m1.p 2 = 10 ∧ m1.p 2 ≠ 1 ∧
      _cds_wfcq_empty 1 2 m1 = .ok false ∧
      ___cds_wfcq_append_store 1 10 m1 = _cds_wfcq_enqueue 1 2 10 ⟨fun _ => 0, fun _ => 1⟩ :=
  wfcq_first_enqueue_window 1 2 10 ⟨fun _ => 0, fun _ => 1⟩ rfl (by decide)

/-! ## Stack: double push -/

theorem schain_next_ne_null (m : SMem) :
    ∀ (l : List Ptr) (top : Ptr), (∀ n ∈ l, svalid n = true) → SChain m top l →
      ∀ x ∈ l, m.next x ≠ NULL := by
  intro l
  induction l with
  | nil =>
    intro top _ _ x hx
    simp at hx
  | cons a l ih =>
    intro top hv hc x hx
    have hvl : ∀ n ∈ l, svalid n = true := fun n hn => hv n (List.mem_cons_of_mem _ hn)
    rcases List.mem_cons.mp hx with e | e
    · rw [e]
      exact schain_top_ne_null m _ l hvl hc.2
    · exact ih _ hvl hc.2 x e

/-- C17: in a quiescent stack the `next` of every linked node is not null, so pushing
a linked node again fails `assert(node->next == NULL)`, which `_cds_wfs_push`
evaluates before its exchange on `s->head`; for a node just initialised by
`_cds_wfs_node_init` the assertion holds and the push returns. -/
theorem wfs_double_push_asserts (s node : Ptr) (m : SMem) (l : List Ptr)
    (h : SRepr m s l) :
    (node ∈ l → m.next node ≠ NULL ∧ _cds_wfs_push s node m = .error .assert) ∧
    (svalid node = true → ∃ m1 r m2, _cds_wfs_node_init node m = .ok m1 ∧
      m1.next node = NULL ∧ _cds_wfs_push s node m1 = .ok (r, m2)) := by
  obtain ⟨hs, hvl, _, hc⟩ := h
  constructor
  · intro hmem
    have hn := schain_next_ne_null m l _ hvl hc node hmem
    exact ⟨hn, by simp [_cds_wfs_push, sload_next, hvl node hmem, hn, bind, Except.bind]⟩
  · intro hv
    exact ⟨_, _, _, by simp [_cds_wfs_node_init, sstore_next, hv]; rfl, by simp,
      by simp [_cds_wfs_push, sload_next, hv, suatomic_xchg_head, hs, sstore_next,
        bind, Except.bind, pure, Except.pure]; exact ⟨rfl, rfl⟩⟩

/-- Witness of C17: the stack at 3 holds 30, 20, 10; pushing 20 again asserts,
pushing the freshly initialised node 40 returns. -/
theorem wfs_double_push_asserts_witness :
    (smem_three.next 20 ≠ NULL ∧ _cds_wfs_push 3 20 smem_three = .error .assert) ∧
    (∃ m1 r m2, _cds_wfs_node_init 40 smem_three = .ok m1 ∧
      m1.next 40 = NULL ∧ _cds_wfs_push 3 40 m1 = .ok (r, m2)) :=
  ⟨(wfs_double_push_asserts 3 20 smem_three [30, 20, 10] (by decide)).1 (by decide),
   (wfs_double_push_asserts 3 40 smem_three [30, 20, 10] (by decide)).2 (by decide)⟩

/-! ## Queue: peek traversal and detachment -/

theorem qchain_next (m : QMem) :
    ∀ (l : List Ptr) (a last : Ptr) (i : Nat), QChain m a l last → m.next last = NULL →
      i < l.length →
      m.next (l.getD i NULL) = l.getD (i + 1) NULL ∧
        (i + 1 = l.length → l.getD i NULL = last) := by
  intro l
  induction l with
  | nil =>
    intro a last i _ _ hi
    simp at hi
  | cons b l ih =>
    intro a last i hc hn hi
    cases i with
    | zero =>
      cases l with
      | nil =>
        have hb : b = last := by simpa [QChain] using hc.2
        subst hb
        simp [hn]
      | cons c l =>
        have hbc : m.next b = c := hc.2.1
        simp [hbc]
    | succ i =>
      have hi' : i < l.length := by simpa using hi
      have := ih b last i hc.2 hn hi'
      simpa using this

theorem qchain_next_mem (m : QMem) :
    ∀ (l : List Ptr) (a last : Ptr), QChain m a l last → m.next last = NULL →
      ∀ x ∈ a :: l, m.next x ∈ l ∨ m.next x = NULL := by
  intro l
  induction l with
  | nil =>
    intro a last hc hn x hx
    have ha : a = last := by simpa [QChain] using hc
    simp at hx
    rw [hx, ha]
    exact Or.inr hn
  | cons b l ih =>
    intro a last hc hn x hx
    rcases List.mem_cons.mp hx with e | e
    · rw [e, hc.1]
      exact Or.inl (List.mem_cons_self _ _)
    · rcases ih b last hc.2 hn x e with h | h
      · exact Or.inl (List.mem_cons_of_mem _ h)
      · exact Or.inr h

theorem qrepr_frame (m m' : QMem) (head tail : Ptr) (l : List Ptr)
    (h : QRepr m head tail l) (hnext : ∀ x ∈ head :: l, m'.next x = m.next x)
    (hp : m'.p tail = m.p tail) : QRepr m' head tail l := by
  obtain ⟨hh, ht, hv, hnd, hc, hn⟩ := h
  refine ⟨hh, ht, hv, hnd, ?_, ?_⟩
  · rw [hp]
    exact qchain_congr m m' l head _ hc hnd (fun x hx _ => hnext x hx)
  · rw [hp, hnext _ (qchain_last_mem m l head _ hc)]
    exact hn

theorem qrepr_first (m : QMem) (head tail : Ptr) (l : List Ptr) (b : Bool) (fuel : Nat)
    (h : QRepr m head tail l) (hf : 1 ≤ fuel) :
    ___cds_wfcq_first head tail b fuel m = .ok (l.headD NULL, m) := by
  have hem := qrepr_empty m head tail l h
  obtain ⟨hh, ht, hv, hnd, hc, hn⟩ := h
  cases l with
  | nil => simp [___cds_wfcq_first, hem, bind, Except.bind, pure, Except.pure]
  | cons a l =>
    have ha0 : a ≠ NULL := qvalid_ne_null (hv a (List.mem_cons_self _ _))
    have hha : m.next head = a := hc.1
    have hsync : ___cds_wfcq_node_sync_next head b fuel m = .ok a := by
      rw [wfcq_sync_next_value head b fuel m hh (by rw [hha]; exact ha0) hf, hha]
    simp [___cds_wfcq_first, hem, hsync, bind, Except.bind, pure, Except.pure]

theorem wfcq_next_of_linked (head tail x y : Ptr) (b : Bool) (fuel : Nat) (m : QMem)
    (hxv : qvalid x = true) (ht : qvalid tail = true) (hnx : m.next x = y)
    (hy : (y = NULL ∧ x = m.p tail) ∨ y ≠ NULL) :
    ___cds_wfcq_next head tail x b fuel m = .ok (y, m) := by
  rcases hy with ⟨hy0, hxt⟩ | hy
  · rw [hy0] at hnx ⊢
    simp [___cds_wfcq_next, qload_next, hxv, hnx, qload_p, ht, hxt.symm,
      bind, Except.bind, pure, Except.pure]
  · simp [___cds_wfcq_next, qload_next, hxv, hnx, hy, bind, Except.bind, pure, Except.pure]

theorem qrepr_next (m : QMem) (head tail : Ptr) (l : List Ptr) (b : Bool) (fuel i : Nat)
    (h : QRepr m head tail l) (hi : i < l.length) :
    ___cds_wfcq_next head tail (l.getD i NULL) b fuel m = .ok (l.getD (i + 1) NULL, m) := by
  obtain ⟨hh, ht, hv, hnd, hc, hn⟩ := h
  obtain ⟨hnx, hlast⟩ := qchain_next m l head _ i hc hn hi
  have hxv : qvalid (l.getD i NULL) = true := by
    rw [List.getD_eq_getElem _ _ hi]
    exact hv _ (List.getElem_mem _)
  refine wfcq_next_of_linked head tail _ _ b fuel m hxv ht hnx ?_
  by_cases hend : i + 1 = l.length
  · exact Or.inl ⟨List.getD_eq_default _ _ (by omega), hlast hend⟩
  · have hlt : i + 1 < l.length := by omega
    refine Or.inr ?_
    rw [List.getD_eq_getElem _ _ hlt]
    exact qvalid_ne_null (hv _ (List.getElem_mem _))

theorem qrepr_dequeue_headD (m : QMem) (head tail : Ptr) (l : List Ptr) (fuel : Nat)
    (h : QRepr m head tail l) (hf : 1 ≤ fuel) :
    ∃ m', ___cds_wfcq_dequeue_blocking head tail fuel m = .ok (l.headD NULL, m') ∧
      QRepr m' head tail l.tail := by
  cases l with
  | nil => exact ⟨m, qrepr_dequeue_nil m head tail fuel h, h⟩
  | cons a l => exact qrepr_dequeue_cons m head tail a l fuel h hf

/-- C11: on a quiescent queue with contents `l`, `___cds_wfcq_first_blocking` returns
the first node of `l` (null when `l` is empty), `___cds_wfcq_next_blocking` on the
`i`-th node returns the `i+1`-th one and null on the last one, both return the
memory they were given, and the dequeue that follows returns the first node. -/
theorem wfcq_peek_traversal (m : QMem) (head tail : Ptr) (l : List Ptr) (fuel : Nat)
    (h : QRepr m head tail l) (hf : 1 ≤ fuel) :
    ___cds_wfcq_first_blocking head tail fuel m = .ok (l.headD NULL, m) ∧
    (∀ i, i < l.length →
      ___cds_wfcq_next_blocking head tail (l.getD i NULL) fuel m
        = .ok (l.getD (i + 1) NULL, m)) ∧
    ∃ m', ___cds_wfcq_dequeue_blocking head tail fuel m = .ok (l.headD NULL, m') := by
  refine ⟨qrepr_first m head tail l true fuel h hf,
    fun i hi => qrepr_next m head tail l true fuel i h hi, ?_⟩
  obtain ⟨m', e, _⟩ := qrepr_dequeue_headD m head tail l fuel h hf
  exact ⟨m', e⟩

/-- Witness of C11: the queue (3, 4) of `qmem_two_queues` holds 10, 20, 30. -/
theorem wfcq_peek_traversal_witness :
    ___cds_wfcq_first_blocking 3 4 1 qmem_two_queues = .ok (10, qmem_two_queues) ∧
    (∀ i, i < 3 →
      ___cds_wfcq_next_blocking 3 4 ([10, 20, 30].getD i NULL) 1 qmem_two_queues
        = .ok ([10, 20, 30].getD (i + 1) NULL, qmem_two_queues)) ∧
    ∃ m', ___cds_wfcq_dequeue_blocking 3 4 1 qmem_two_queues = .ok (10, m') :=
  wfcq_peek_traversal qmem_two_queues 3 4 [10, 20, 30] 1 (by decide) (by decide)

/-- C13: after a blocking dequeue on a quiescent non-empty queue returns `N`, `tail->p`
is not `N` and no `next` field of the sentinel or of a remaining node holds `N`;
whatever the caller then stores in `N->next`, the queue drains as it would have:
the remaining nodes in order, then null. -/
theorem wfcq_dequeued_node_detached (m : QMem) (head tail N : Ptr) (l : List Ptr)
    (fuel : Nat) (h : QRepr m head tail (N :: l)) (hf : 1 ≤ fuel) :
    ∃ m', ___cds_wfcq_dequeue_blocking head tail fuel m = .ok (N, m') ∧
      m'.p tail ≠ N ∧ (∀ x ∈ head :: l, m'.next x ≠ N) ∧
      ∀ v, ∃ m'' mf, qstore_next N v m' = .ok m'' ∧
        qrun head tail fuel (List.replicate (l.length + 1) QOp.dequeue) m''
          = .ok (l ++ [NULL], mf) := by
  have hNv : qvalid N = true := h.2.2.1 N (List.mem_cons_self _ _)
  have hN0 : N ≠ NULL := qvalid_ne_null hNv
  have hNfresh : N ∉ head :: l := by
    have hnd := h.2.2.2.1
    simp only [List.nodup_cons, List.mem_cons, not_or] at hnd
    intro hmem
    rcases List.mem_cons.mp hmem with e | e
    · exact hnd.1.1 e.symm
    · exact hnd.2.1 e
  obtain ⟨m', e, hr⟩ := qrepr_dequeue_cons m head tail N l fuel h hf
  refine ⟨m', e, ?_, ?_, ?_⟩
  · intro hp
    exact hNfresh (hp ▸ qchain_last_mem m' l head _ hr.2.2.2.2.1)
  · intro x hx hxN
    rcases qchain_next_mem m' l head _ hr.2.2.2.2.1 hr.2.2.2.2.2 x hx with h1 | h1
    · exact hNfresh (List.mem_cons_of_mem _ (hxN ▸ h1))
    · exact hN0 (hxN.symm.trans h1)
  · intro v
    have hr2 : QRepr { m' with next := fun a => if a = N then v else m'.next a } head tail l :=
      qrepr_frame m' _ head tail l hr
        (fun x hx => by
          have hxN : x ≠ N := fun e => hNfresh (e ▸ hx)
          simp [hxN]) rfl
    obtain ⟨mf, ef⟩ := qrun_drain head tail fuel hf _ l hr2
    exact ⟨_, mf, by simp [qstore_next, hNv], ef⟩

/-- Witness of C13: dequeue 10 from the queue (3, 4) holding 10, 20, 30. -/
theorem wfcq_dequeued_node_detached_witness :
    ∃ m', ___cds_wfcq_dequeue_blocking 3 4 1 qmem_two_queues = .ok (10, m') ∧
      m'.p 4 ≠ 10 ∧ (∀ x ∈ [3, 20, 30], m'.next x ≠ 10) ∧
      ∀ v, ∃ m'' mf, qstore_next 10 v m' = .ok m'' ∧
        qrun 3 4 1 (List.replicate 3 QOp.dequeue) m'' = .ok ([20, 30, NULL], mf) :=
  wfcq_dequeued_node_detached qmem_two_queues 3 4 10 [20, 30] 1 (by decide) (by decide)

/-! ## Queue: non-blocking against blocking on quiescent states -/

theorem qrepr_null_iff_tail (m : QMem) (head tail : Ptr) (l : List Ptr)
    (h : QRepr m head tail l) :
    (m.next head = NULL ↔ m.p tail = head) ∧ (m.p tail = head ↔ l = []) := by
  obtain ⟨hh, ht, hv, hnd, hc, hn⟩ := h
  cases l with
  | nil =>
    have hp : head = m.p tail := by simpa [QChain] using hc
    rw [← hp] at hn
    simp [hn, ← hp]
  | cons a l =>
    have ha : m.next head ≠ NULL := by
      rw [hc.1]
      exact qvalid_ne_null (hv a (List.mem_cons_self _ _))
    have hp : m.p tail ≠ head := by
      intro e
      have hmem := qchain_last_mem m l a _ hc.2
      rw [e] at hmem
      exact (List.nodup_cons.mp hnd).1 hmem
    simp [ha, hp]

theorem qrepr_splice_total (m : QMem) (dh dt sh st : Ptr) (ld ls : List Ptr) (fuel : Nat)
    (hd : QRepr m dh dt ld) (hs : QRepr m sh st ls)
    (hnd : (dh :: sh :: (ld ++ ls)).Nodup) (htt : dt ≠ st) (hf : 1 ≤ fuel) :
    ∃ m', ___cds_wfcq_splice_blocking dh dt sh st fuel m = .ok m' ∧
      QRepr m' sh st [] ∧ QRepr m' dh dt (ld ++ ls) := by
  cases ls with
  | nil =>
    have hem := qrepr_empty m sh st [] hs
    exact ⟨m, by simp [___cds_wfcq_splice_blocking, ___cds_wfcq_splice, hem, bind, Except.bind,
      pure, Except.pure], hs, by simpa using hd⟩
  | cons H ls =>
    obtain ⟨m', e, h1, h2⟩ :=
      qrepr_splice m dh dt sh st ld (H :: ls) fuel hd hs (by simp) hnd htt hf
    exact ⟨m', by simp [___cds_wfcq_splice_blocking, e, bind, Except.bind, pure, Except.pure],
      h1, h2⟩

/-- C18: quiescence (`QRepr`: the `next` chain from the sentinel runs through finitely
many pairwise distinct nodes, ends at `tail->p`, and the last `next` is null) holds
after `_cds_wfcq_init` and is kept by every completed enqueue of an initialised
node not in the queue, every blocking dequeue and every blocking splice between
disjoint queues; in a quiescent state `head->node.next` is null exactly when
`tail->p` is the sentinel, and `_cds_wfcq_empty` is the test `tail->p == &head->node`. -/
theorem wfcq_quiescent_invariant (head tail : Ptr) (fuel : Nat) (hf : 1 ≤ fuel) :
    (∀ m0, qvalid head = true → qvalid tail = true →
      ∃ m, _cds_wfcq_init head tail m0 = .ok m ∧ QRepr m head tail []) ∧
    (∀ m l node, QRepr m head tail l → qvalid node = true → node ∉ head :: l →
      ∃ m1 m2, _cds_wfcq_node_init node m = .ok m1 ∧
        _cds_wfcq_enqueue head tail node m1 = .ok m2 ∧ QRepr m2 head tail (l ++ [node])) ∧
    (∀ m l, QRepr m head tail l →
      ∃ m', ___cds_wfcq_dequeue_blocking head tail fuel m = .ok (l.headD NULL, m') ∧
        QRepr m' head tail l.tail) ∧
    (∀ m src_q_head src_q_tail l ls, QRepr m head tail l → QRepr m src_q_head src_q_tail ls →
      (head :: src_q_head :: (l ++ ls)).Nodup → tail ≠ src_q_tail →
      ∃ m', ___cds_wfcq_splice_blocking head tail src_q_head src_q_tail fuel m = .ok m' ∧
        QRepr m' src_q_head src_q_tail [] ∧ QRepr m' head tail (l ++ ls)) ∧
    (∀ m l, QRepr m head tail l →
      (m.next head = NULL ↔ m.p tail = head) ∧
      _cds_wfcq_empty head tail m = .ok (decide (m.p tail = head))) := by
  refine ⟨fun m0 hh ht => qrepr_init head tail m0 hh ht,
    fun m l node h hv hfresh => qrepr_enqueue m head tail node l h hv hfresh,
    fun m l h => qrepr_dequeue_headD m head tail l fuel h hf,
    fun m sh st l ls hd hs hnd htt => qrepr_splice_total m head tail sh st l ls fuel hd hs hnd htt hf,
    fun m l h => ?_⟩
  have h1 := qrepr_null_iff_tail m head tail l h
  refine ⟨h1.1, ?_⟩
  rw [qrepr_empty m head tail l h]
  congr 1
  cases l with
  | nil => simp [h1.2.mpr rfl]
  | cons a l =>
    have : m.p tail ≠ head := fun e => by simpa using h1.2.mp e
    simp [this]

/-- Witness of C18 on the queues (1, 2) and (3, 4) of `qmem_two_queues`. -/
theorem wfcq_quiescent_invariant_witness :
    (∃ m, _cds_wfcq_init 1 2 ⟨fun _ => 7, fun _ => 7⟩ = .ok m ∧ QRepr m 1 2 []) ∧
    (∃ m1 m2, _cds_wfcq_node_init 60 qmem_two_queues = .ok m1 ∧
      _cds_wfcq_enqueue 1 2 60 m1 = .ok m2 ∧ QRepr m2 1 2 [40, 50, 60]) ∧
    (∃ m', ___cds_wfcq_dequeue_blocking 1 2 1 qmem_two_queues = .ok (40, m') ∧
      QRepr m' 1 2 [50]) ∧
    (∃ m', ___cds_wfcq_splice_blocking 1 2 3 4 1 qmem_two_queues = .ok m' ∧
      QRepr m' 3 4 [] ∧ QRepr m' 1 2 [40, 50, 10, 20, 30]) ∧
    ((qmem_two_queues.next 1 = NULL ↔ qmem_two_queues.p 2 = 1) ∧
      _cds_wfcq_empty 1 2 qmem_two_queues = .ok (decide (qmem_two_queues.p 2 = 1))) :=
  ⟨(wfcq_quiescent_invariant 1 2 1 (by decide)).1 ⟨fun _ => 7, fun _ => 7⟩
      (by decide) (by decide),
   (wfcq_quiescent_invariant 1 2 1 (by decide)).2.1 qmem_two_queues [40, 50] 60
      (by decide) (by decide) (by decide),
   (wfcq_quiescent_invariant 1 2 1 (by decide)).2.2.1 qmem_two_queues [40, 50] (by decide),
   (wfcq_quiescent_invariant 1 2 1 (by decide)).2.2.2.1 qmem_two_queues 3 4 [40, 50]
      [10, 20, 30] (by decide) (by decide) (by decide) (by decide),
   (wfcq_quiescent_invariant 1 2 1 (by decide)).2.2.2.2 qmem_two_queues [40, 50] (by decide)⟩

/-! ## Queue: after a non-blocking dequeue met an in-flight enqueue -/

theorem wfcq_dequeue_nonblocking_leaves_wouldblock (head tail N : Ptr) (m : QMem)
    (hh : qvalid head = true) (ht : qvalid tail = true) (hN : qvalid N = true)
    (h1 : m.next head = N) (h2 : m.next N = NULL) (h3 : m.p tail ≠ N) :
    N ≠ head ∧ ___cds_wfcq_dequeue_nonblocking head tail m =
      .ok (N, ⟨fun a => if a = head then CDS_WFCQ_WOULDBLOCK else
                if a = head then NULL else m.next a, m.p⟩) := by
  have hN0 : N ≠ NULL := qvalid_ne_null hN
  have hne : N ≠ head := by
    intro h
    rw [h] at h2
    rw [h2] at h1
    exact hN0 h1.symm
  have hs : ___cds_wfcq_node_sync_next N false 1
      { next := fun a => if a = head then NULL else m.next a, p := m.p }
      = .ok CDS_WFCQ_WOULDBLOCK :=
    wfcq_sync_next_wouldblock N _ hN (by simp [hne, h2])
  refine ⟨hne, ?_⟩
  simp [___cds_wfcq_dequeue_nonblocking, ___cds_wfcq_dequeue, wfcq_empty_eq, hh, ht, h1, hN0,
    wfcq_sync_next_value, qload_next, hN, h2, _cds_wfcq_node_init, qstore_next,
    quatomic_cmpxchg_p, h3, hs, bind, Except.bind, pure, Except.pure]

/-- C9 (the code departs from it): take as `src` a queue with node `N` linked, `N->next`
null and `tail->p` not `N` (an enqueue behind `N` is in flight).  After
`___cds_wfcq_dequeue_nonblocking` has returned `N` from it, `head->node.next` of
`src` is not null, so `src` is not in the would-block state of the claim; yet
`___cds_wfcq_splice_nonblocking` returns `-1`, not `0`, whatever `dest` is, and so
does the blocking splice for every fuel of at least one; memory is unchanged. -/
theorem wfcq_splice_after_nonblocking_dequeue (dest_q_head dest_q_tail head tail N : Ptr)
    (m : QMem) (fuel : Nat)
    (hh : qvalid head = true) (ht : qvalid tail = true) (hN : qvalid N = true)
    (h1 : m.next head = N) (h2 : m.next N = NULL) (h3 : m.p tail ≠ N) (hf : 1 ≤ fuel) :
    ∃ m1, ___cds_wfcq_dequeue_nonblocking head tail m = .ok (N, m1) ∧
      m1.next head ≠ NULL ∧ ¬ (m1.next head = NULL ∧ m1.p tail ≠ head) ∧
      ___cds_wfcq_splice_nonblocking dest_q_head dest_q_tail head tail m1 = .ok (-1, m1) ∧
      ___cds_wfcq_splice dest_q_head dest_q_tail head tail true fuel m1 = .ok (-1, m1) := by
  obtain ⟨_, e1⟩ := wfcq_dequeue_nonblocking_leaves_wouldblock head tail N m hh ht hN h1 h2 h3
  have hw : CDS_WFCQ_WOULDBLOCK ≠ NULL := by decide
  refine ⟨_, e1, by simpa using hw, by simp [hw], ?_, ?_⟩
  · simp [___cds_wfcq_splice_nonblocking, ___cds_wfcq_splice, wfcq_empty_eq, hh, ht, hw,
      wfcq_sync_next_value, bind, Except.bind, pure, Except.pure]
  · simp [___cds_wfcq_splice, wfcq_empty_eq, hh, ht, hw, wfcq_sync_next_value, hf,
      bind, Except.bind, pure, Except.pure]

/-- Witness of C9: `dest` is the empty queue (1, 2), `src` the queue (3, 4) of
`qmem_empty_and_inflight`, holding node 10 with node 20 in flight. -/
theorem wfcq_splice_after_nonblocking_dequeue_witness :
    ∃ m1, ___cds_wfcq_dequeue_nonblocking 3 4 qmem_empty_and_inflight = .ok (10, m1) ∧
      m1.next 3 ≠ NULL ∧ ¬ (m1.next 3 = NULL ∧ m1.p 4 ≠ 3) ∧
      ___cds_wfcq_splice_nonblocking 1 2 3 4 m1 = .ok (-1, m1) ∧
      ___cds_wfcq_splice 1 2 3 4 true 5 m1 = .ok (-1, m1) :=
  wfcq_splice_after_nonblocking_dequeue 1 2 3 4 10 qmem_empty_and_inflight 5
    (by decide) (by decide) (by decide) rfl rfl (by decide) (by decide)

/-- C12 (the code departs from it): take a queue with node `N` linked, `N->next` null and
`tail->p` at another node `n` whose enqueuer has not yet stored `N->next`.
`___cds_wfcq_dequeue_nonblocking` returns `N` and leaves the would-block value in
`head->node.next`; on that memory `___cds_wfcq_first_nonblocking` returns the
would-block value; and once the in-flight enqueuer has performed its second
store (`N->next = n`), `___cds_wfcq_first_blocking` on the same arguments still
returns the would-block value, for every fuel of at least one, while
`___cds_wfcq_dequeue_blocking` loads through it. -/
theorem wfcq_wouldblock_round_trip_broken (head tail N n : Ptr) (m : QMem) (fuel : Nat)
    (hh : qvalid head = true) (ht : qvalid tail = true) (hN : qvalid N = true)
    (h1 : m.next head = N) (h2 : m.next N = NULL)
    (h3 : m.p tail = n) (hnN : n ≠ N) (hf : 1 ≤ fuel) :
    ∃ m1 m2, ___cds_wfcq_dequeue_nonblocking head tail m = .ok (N, m1) ∧
      ___cds_wfcq_first_nonblocking head tail m1 = .ok (CDS_WFCQ_WOULDBLOCK, m1) ∧
      ___cds_wfcq_append_store N n m1 = .ok m2 ∧
      m2.next N = n ∧ m2.p tail = n ∧
      ___cds_wfcq_first_blocking head tail fuel m2 = .ok (CDS_WFCQ_WOULDBLOCK, m2) ∧
      ___cds_wfcq_dequeue_blocking head tail fuel m2
        = .error (.segv CDS_WFCQ_WOULDBLOCK) := by
  have h3' : m.p tail ≠ N := by rw [h3]; exact hnN
  obtain ⟨hne, e1⟩ :=
    wfcq_dequeue_nonblocking_leaves_wouldblock head tail N m hh ht hN h1 h2 h3'
  have hne' : head ≠ N := fun e => hne e.symm
  have hw : CDS_WFCQ_WOULDBLOCK ≠ NULL := by decide
  refine ⟨_, ⟨fun a => if a = N then n else
      if a = head then CDS_WFCQ_WOULDBLOCK else if a = head then NULL else m.next a,
      m.p⟩, e1, ?_, ?_, by simp, h3, ?_, ?_⟩
  · simp [___cds_wfcq_first_nonblocking, ___cds_wfcq_first, wfcq_empty_eq, hh, ht, hw,
      wfcq_sync_next_value, bind, Except.bind, pure, Except.pure]
  · simp [___cds_wfcq_append_store, qstore_next, hN]
  · simp [___cds_wfcq_first_blocking, ___cds_wfcq_first, wfcq_empty_eq, hh, ht, hw, hne',
      wfcq_sync_next_value, hf, bind, Except.bind, pure, Except.pure]
  · simp [___cds_wfcq_dequeue_blocking, ___cds_wfcq_dequeue, wfcq_empty_eq, hh, ht, hw, hne',
      wfcq_sync_next_value, hf, qload_next, not_qvalid_wouldblock, bind, Except.bind]

/-- Witness of C12: on `qmem_inflight_second` (head 1, tail 2, node 10 linked, node 20 in
flight) the non-blocking dequeue returns 10; `first` then would block; after the
store `10->next = 20` the blocking `first` returns the would-block value. -/
theorem wfcq_wouldblock_round_trip_broken_witness :
    ∃ m1 m2, ___cds_wfcq_dequeue_nonblocking 1 2 qmem_inflight_second = .ok (10, m1) ∧
      ___cds_wfcq_first_nonblocking 1 2 m1 = .ok (CDS_WFCQ_WOULDBLOCK, m1) ∧
      ___cds_wfcq_append_store 10 20 m1 = .ok m2 ∧
      m2.next 10 = 20 ∧ m2.p 2 = 20 ∧
      ___cds_wfcq_first_blocking 1 2 5 m2 = .ok (CDS_WFCQ_WOULDBLOCK, m2) ∧
      ___cds_wfcq_dequeue_blocking 1 2 5 m2 = .error (.segv CDS_WFCQ_WOULDBLOCK) :=
  wfcq_wouldblock_round_trip_broken 1 2 10 20 qmem_inflight_second 5
    (by decide) (by decide) (by decide) rfl rfl rfl (by decide) (by decide)

/-! ## Stack: pop_all against repeated pop -/

theorem srepr_pop_all (m : SMem) (s : Ptr) (l : List Ptr) (h : SRepr m s l) :
    ___cds_wfs_pop_all s m = .ok (l.headD NULL,
      { m with head := fun a => if a = s then CDS_WFS_END else m.head a }) := by
  obtain ⟨hs, hvl, _, hc⟩ := h
  cases l with
  | nil =>
    simp [SChain] at hc
    simp [___cds_wfs_pop_all, suatomic_xchg_head, hs, ___cds_wfs_end, hc,
      bind, Except.bind, pure, Except.pure]
  | cons a l =>
    have ha : m.head s ≠ CDS_WFS_END := by
      rw [hc.1]
      exact svalid_ne_end (hvl a (List.mem_cons_self _ _))
    simp [___cds_wfs_pop_all, suatomic_xchg_head, hs, ___cds_wfs_end, ha,
      bind, Except.bind, pure, Except.pure]
    exact hc.1

theorem srepr_for_each_popped (m : SMem) (s : Ptr) (l : List Ptr) (fuel steps : Nat)
    (h : SRepr m s l) (hf : 1 ≤ fuel) (hsteps : l.length + 1 ≤ steps) :
    wfs_for_each (l.headD NULL) fuel steps
        { m with head := fun a => if a = s then CDS_WFS_END else m.head a }
      = .ok (l, { m with head := fun a => if a = s then CDS_WFS_END else m.head a }) := by
  obtain ⟨hs, hvl, _, hc⟩ := h
  have hc2 : SChain { m with head := fun a => if a = s then CDS_WFS_END else m.head a }
      (m.head s) l := schain_congr m _ _ _ hc (fun _ _ => rfl)
  have hfirst : _cds_wfs_first_blocking (l.headD NULL) = _cds_wfs_first_blocking (m.head s) := by
    cases l with
    | nil =>
      simp [SChain] at hc
      simp [_cds_wfs_first_blocking, ___cds_wfs_end, hc, NULL, CDS_WFS_END]
    | cons a l => simp [hc.1]
  unfold wfs_for_each
  rw [hfirst]
  exact wfs_for_each_chain fuel hf _ l (m.head s) steps hvl hc2 hsteps

theorem srepr_pop_until_null (s : Ptr) (fuel : Nat) (hf : 1 ≤ fuel) :
    ∀ (l : List Ptr) (m : SMem) (steps : Nat), SRepr m s l → l.length + 1 ≤ steps →
      ∃ m', wfs_pop_until_null s fuel steps m = .ok (l, m') ∧ SRepr m' s [] := by
  intro l
  induction l with
  | nil =>
    intro m steps h hsteps
    obtain ⟨k, rfl⟩ : ∃ k, steps = k + 1 := ⟨steps - 1, by simp at hsteps; omega⟩
    exact ⟨m, by simp [wfs_pop_until_null, srepr_pop_nil m s fuel hf h, bind, Except.bind, pure,
      Except.pure], h⟩
  | cons a l ih =>
    intro m steps h hsteps
    obtain ⟨k, rfl⟩ : ∃ k, steps = k + 1 := ⟨steps - 1, by simp at hsteps; omega⟩
    have ha0 : a ≠ NULL := svalid_ne_null (h.2.1 a (List.mem_cons_self _ _))
    obtain ⟨m1, e1, hr⟩ := srepr_pop_cons m s a l fuel hf h
    obtain ⟨m', e2, hr'⟩ := ih m1 k hr (by simp at hsteps; omega)
    exact ⟨m', by simp [wfs_pop_until_null, e1, ha0, e2, bind, Except.bind, pure, Except.pure],
      hr'⟩

/-- C21: on a quiescent stack with contents `l`, `___cds_wfs_pop_all` followed by the
`first`/`next` traversal of what it returns visits exactly the nodes that
repeated `___cds_wfs_pop_blocking` returns before it returns null, in the same
order (the contents, most recent first), and both leave `s->head` at `CDS_WFS_END`. -/
theorem wfs_pop_all_agrees_with_pops (m : SMem) (s : Ptr) (l : List Ptr) (fuel steps : Nat)
    (h : SRepr m s l) (hf : 1 ≤ fuel) (hsteps : l.length + 1 ≤ steps) :
    ∃ chain m1 visited m2 popped, ___cds_wfs_pop_all s m = .ok (chain, m1) ∧
      wfs_for_each chain fuel steps m1 = .ok (visited, m1) ∧
      wfs_pop_until_null s fuel steps m = .ok (popped, m2) ∧
      visited = popped ∧ popped = l ∧
      m1.head s = CDS_WFS_END ∧ m2.head s = CDS_WFS_END := by
  obtain ⟨m2, e2, hr2⟩ := srepr_pop_until_null s fuel hf l m steps h hsteps
  refine ⟨_, _, l, m2, l, srepr_pop_all m s l h,
    srepr_for_each_popped m s l fuel steps h hf hsteps, e2, rfl, rfl, by simp, ?_⟩
  simpa [SChain] using hr2.2.2.2

/-- Witness of C21: the stack at 3 of `smem_three` holds 30, 20, 10. -/
theorem wfs_pop_all_agrees_with_pops_witness :
    ∃ chain m1 visited m2 popped, ___cds_wfs_pop_all 3 smem_three = .ok (chain, m1) ∧
      wfs_for_each chain 1 4 m1 = .ok (visited, m1) ∧
      wfs_pop_until_null 3 1 4 smem_three = .ok (popped, m2) ∧
      visited = popped ∧ popped = [30, 20, 10] ∧
      m1.head 3 = CDS_WFS_END ∧ m2.head 3 = CDS_WFS_END :=
  wfs_pop_all_agrees_with_pops smem_three 3 [30, 20, 10] 1 4 (by decide) (by decide)
    (by decide)

end Urcu
